import Mathlib

/-!
# Shear sort on square integer matrices

A shallow embedding of `shearsort.cpp` (and the round count shared with
`shearsortP.cpp`): `sortRow`, `sortColumn`, `shearSortRound`, `shearSort`
and the validator `isSortedSnake`.

A `vector<vector<int>>` is a list of rows.  The functions of the source take
the matrix by reference and mutate it; here each returns the matrix it leaves
behind.  Entries are only compared and copied, never computed with, so they
are unbounded integers.
-/

namespace ShearSort

/-- The C++ type `vector<vector<int>>`: a list of rows. -/
abbrev Matrix := List (List Int)

/-- A matrix with `n` rows, each of exactly `n` elements. -/
def IsSquare (M : Matrix) (n : Nat) : Prop :=
  M.length = n ∧ ∀ row ∈ M, row.length = n

instance (M : Matrix) (n : Nat) : Decidable (IsSquare M n) := by
  unfold IsSquare; infer_instance

/-- The read `M[i][j]`.  Inside an `n×n` matrix both indices are in bounds; the
defaults are only reached outside that precondition. -/
def entry (M : Matrix) (i j : Nat) : Int := (M.getD i []).getD j 0

/-- The write `M[i][j] = v`. -/
def setEntry (M : Matrix) (i j : Nat) (v : Int) : Matrix :=
  M.set i ((M.getD i []).set j v)

/-- The call `std::sort(first, last)` on a range of `int`.  The standard fixes
its result as the non-decreasing rearrangement of the range, which for
integers is a unique sequence; insertion sort computes it. -/
def stdSort (l : List Int) : List Int := l.insertionSort (· ≤ ·)

/-- The call `std::sort(v.rbegin(), v.rend())`: the range is sorted as seen
through the reverse iterators, so the vector read backwards becomes
non-decreasing. -/
def stdSortReverse (l : List Int) : List Int := (stdSort l.reverse).reverse

/-- Embedding of `sortRow(M, row)`. -/
def sortRow (M : Matrix) (row : Nat) : Matrix :=
  if row % 2 = 0 then
    M.set row (stdSort (M.getD row []))
  else
    M.set row (stdSortReverse (M.getD row []))

/-- Embedding of `sortColumn(M, col)`: gather the column into a temporary
vector, sort it, write it back row by row. -/
def sortColumn (M : Matrix) (col : Nat) : Matrix :=
  let n := M.length
  let column := (List.range n).map fun i => entry M i col
  let column := stdSort column
  (List.range n).foldl (fun M i => setEntry M i col (column.getD i 0)) M

/-- Embedding of `shearSortRound(M)`: every row, then every column. -/
def shearSortRound (M : Matrix) : Matrix :=
  let n := M.length
  let M := (List.range n).foldl sortRow M
  (List.range n).foldl sortColumn M

/-- Integer part of the binary logarithm, by repeated halving; the first
argument bounds the number of halvings. -/
def floorLog2Aux : Nat → Nat → Nat
  | 0, _ => 0
  | fuel + 1, n => if n < 2 then 0 else floorLog2Aux fuel (n / 2) + 1

/-- Integer part of the binary logarithm of `n` (`0` for `n ≤ 1`). -/
def floorLog2 (n : Nat) : Nat := floorLog2Aux n n

/-- The expression `static_cast<int>(log2(n))`.  For `n ≥ 1` the double
`log2(n)` lies in `[k, k+1)` with `k` the integer part of the binary
logarithm, and the cast truncates it to `k`.  For `n = 0` the library returns
minus infinity and the cast is not defined by the language; the value taken
here is the one the x86-64 conversion instruction yields, `INT_MIN`. -/
def log2Cast (n : Nat) : Int :=
  if n = 0 then -2147483648 else (floorLog2 n : Int)

/-- The local `rounds` of `shearSort` and of `shearSortParallel`. -/
def shearSortRounds (n : Nat) : Int := log2Cast n + 1

/-- The loop `for (int r = 0; r < rounds; ++r) shearSortRound(M);` started at
counter value `r`.  The result is the counter at loop exit together with the
matrix.  The first argument bounds the number of iterations. -/
def shearSortLoop (rounds : Int) : Nat → Int → Matrix → Int × Matrix
  | 0, r, M => (r, M)
  | fuel + 1, r, M =>
    if r < rounds then shearSortLoop rounds fuel (r + 1) (shearSortRound M)
    else (r, M)

/-- Embedding of `shearSort(M)`, keeping the final value of the loop counter:
started at `0` and incremented once per round, it is the number of calls of
`shearSortRound`. -/
def shearSortRun (M : Matrix) : Int × Matrix :=
  let n := M.length
  let rounds := shearSortRounds n
  shearSortLoop rounds rounds.toNat 0 M

/-- The matrix left by `shearSort(M)`. -/
def shearSort (M : Matrix) : Matrix := (shearSortRun M).2

/-- Embedding of `isSortedSnake(M)`.  Each loop returns `false` at the first
failing comparison and falls through otherwise, which is `List.all` over its
index range; `j` and `i` of the inner loops start at `1`. -/
def isSortedSnake (M : Matrix) : Bool :=
  let n := M.length
  let rowsOk := (List.range n).all fun i =>
    (List.range' 1 (n - 1)).all fun j =>
      if i % 2 = 0 then !decide (entry M i (j - 1) > entry M i j)
      else !decide (entry M i (j - 1) < entry M i j)
  let colsOk := (List.range n).all fun j =>
    (List.range' 1 (n - 1)).all fun i =>
      !decide (entry M (i - 1) j > entry M i j)
  rowsOk && colsOk

/-- The entries read in snake order: rows top to bottom, even rows left to
right, odd rows right to left. -/
def snakeFlatten (M : Matrix) : List Int :=
  ((List.range M.length).map fun i =>
    if i % 2 = 0 then M.getD i [] else (M.getD i []).reverse).flatten

/-- Column `c` read top to bottom: `M[0][c], ..., M[n-1][c]`. -/
def column (M : Matrix) (c : Nat) : List Int :=
  (List.range M.length).map fun i => entry M i c


/-- The contents `sortRow(M, r)` gives row `r`, as a function of the old row:
the two branches of `sortRow` without the write into the matrix. -/
def sortedRow (r : Nat) (l : List Int) : List Int :=
  if r % 2 = 0 then stdSort l else stdSortReverse l

/-- The 4×4 input of the worked scenario. -/
def scenario4 : Matrix :=
  [[16, 3, 9, 5], [11, 2, 8, 14], [7, 10, 1, 13], [6, 12, 4, 15]]

/-- A 3×3 input with a repeated value (`0`) and values occurring once (`1`, `2`). -/
def threeDup : Matrix := [[0, 0, 1], [0, 0, 0], [0, 0, 2]]

/-- A 3×3 input with nine distinct values. -/
def threeDistinct : Matrix := [[1, 3, 5], [6, 7, 8], [2, 4, 9]]

/-- A 2×2 matrix in snake order. -/
def snake2 : Matrix := [[1, 2], [4, 3]]


/-- Embedding of `shearSortRoundParallel(M)` of `shearsortP.cpp`.  Each
`#pragma omp parallel for` hands the iterations `0..n-1` of its loop to the
worker threads and joins them at the end of the loop; `rowOrder` and
`colOrder` are the orders in which the iterations of the first and of the
second loop take effect. -/
def shearSortRoundParallel (rowOrder colOrder : List Nat) (M : Matrix) : Matrix :=
  let M := rowOrder.foldl sortRow M
  colOrder.foldl sortColumn M

/-- The loop `for (int r = 0; r < rounds; ++r) shearSortRoundParallel(M);`
started at counter value `r`; `sched r` holds the two iteration orders of
round `r`.  The first argument bounds the number of iterations. -/
def shearSortParallelLoop (sched : Int → List Nat × List Nat) (rounds : Int) :
    Nat → Int → Matrix → Int × Matrix
  | 0, r, M => (r, M)
  | fuel + 1, r, M =>
    if r < rounds then
      shearSortParallelLoop sched rounds fuel (r + 1)
        (shearSortRoundParallel (sched r).1 (sched r).2 M)
    else (r, M)

/-- Embedding of `shearSortParallel(M)` under the schedule `sched`. -/
def shearSortParallel (sched : Int → List Nat × List Nat) (M : Matrix) : Matrix :=
  let n := M.length
  let rounds := shearSortRounds n
  (shearSortParallelLoop sched rounds rounds.toNat 0 M).2

/-! ## The same functions with every index access checked

Each function below follows its counterpart above statement by statement and
returns `none` as soon as an access `M[i]`, `M[i][j]` or `column[i]` falls
outside the vector it indexes. -/

/-- The read `M[i][j]`, checked. -/
def entryChecked (M : Matrix) (i j : Nat) : Option Int :=
  match M[i]? with
  | none => none
  | some row => row[j]?

/-- The write `M[i][j] = v`, checked. -/
def setEntryChecked (M : Matrix) (i j : Nat) (v : Int) : Option Matrix :=
  match M[i]? with
  | none => none
  | some row => if j < row.length then some (M.set i (row.set j v)) else none

/-- The statement `sortRow(M, row)`, with the access `M[row]` checked. -/
def sortRowChecked (M : Matrix) (row : Nat) : Option Matrix :=
  match M[row]? with
  | none => none
  | some l =>
    if row % 2 = 0 then some (M.set row (stdSort l))
    else some (M.set row (stdSortReverse l))

/-- A loop `for (i ...) f(M, i)` over the indices `is`, stopping at the first
failing access. -/
def forEachChecked (f : Matrix → Nat → Option Matrix) : List Nat → Matrix → Option Matrix
  | [], M => some M
  | i :: is, M =>
    match f M i with
    | none => none
    | some R => forEachChecked f is R

/-- The gathering loop `column[i] = M[i][col]` of `sortColumn` over the
indices `is`, checked. -/
def gatherChecked (M : Matrix) (col : Nat) : List Nat → Option (List Int)
  | [] => some []
  | i :: is =>
    match entryChecked M i col, gatherChecked M col is with
    | some x, some xs => some (x :: xs)
    | _, _ => none

/-- The statement `sortColumn(M, col)`, checked. -/
def sortColumnChecked (M : Matrix) (col : Nat) : Option Matrix :=
  let n := M.length
  match gatherChecked M col (List.range n) with
  | none => none
  | some column =>
    let column := stdSort column
    forEachChecked
      (fun M i =>
        match column[i]? with
        | none => none
        | some v => setEntryChecked M i col v)
      (List.range n) M

/-- The statement `shearSortRound(M)`, checked. -/
def shearSortRoundChecked (M : Matrix) : Option Matrix :=
  let n := M.length
  match forEachChecked sortRowChecked (List.range n) M with
  | none => none
  | some R => forEachChecked sortColumnChecked (List.range n) R

/-- The round loop of `shearSort`, checked. -/
def shearSortLoopChecked (rounds : Int) : Nat → Int → Matrix → Option (Int × Matrix)
  | 0, r, M => some (r, M)
  | fuel + 1, r, M =>
    if r < rounds then
      match shearSortRoundChecked M with
      | none => none
      | some R => shearSortLoopChecked rounds fuel (r + 1) R
    else some (r, M)

/-- The statement `shearSort(M)`, checked: the matrix it leaves, or `none`. -/
def shearSortChecked (M : Matrix) : Option Matrix :=
  let n := M.length
  let rounds := shearSortRounds n
  match shearSortLoopChecked rounds rounds.toNat 0 M with
  | none => none
  | some (_, R) => some R

/-- A loop that returns `false` at the first index whose test fails, over the
indices `is`; `none` when a test reads out of range before that. -/
def allChecked (p : Nat → Option Bool) : List Nat → Option Bool
  | [] => some true
  | i :: is =>
    match p i with
    | none => none
    | some false => some false
    | some true => allChecked p is

/-- The call `isSortedSnake(M)`, checked. -/
def isSortedSnakeChecked (M : Matrix) : Option Bool :=
  let n := M.length
  let rowsOk := allChecked (fun i =>
    allChecked (fun j =>
      match entryChecked M i (j - 1), entryChecked M i j with
      | some a, some b => if i % 2 = 0 then some (!decide (a > b)) else some (!decide (a < b))
      | _, _ => none) (List.range' 1 (n - 1))) (List.range n)
  match rowsOk with
  | none => none
  | some false => some false
  | some true =>
    allChecked (fun j =>
      allChecked (fun i =>
        match entryChecked M (i - 1) j, entryChecked M i j with
        | some a, some b => some (!decide (a > b))
        | _, _ => none) (List.range' 1 (n - 1))) (List.range n)

/-- Row `i` as it is read in snake order: left to right for an even `i`, right
to left for an odd `i`. -/
def snakeRow (M : Matrix) (i : Nat) : List Int :=
  if i % 2 = 0 then M.getD i [] else (M.getD i []).reverse

/-! ## Matrices of zeros and ones (used for the convergence of shear sort) -/

/-- A list all of whose elements are `0` or `1`. -/
def IsBinaryList (l : List Int) : Prop := ∀ x ∈ l, x = 0 ∨ x = 1

/-- A matrix all of whose entries are `0` or `1`. -/
def IsBinary (M : Matrix) : Prop := ∀ row ∈ M, IsBinaryList row

/-- The first loop of `shearSortRound`: `sortRow` on every row. -/
def rowPhase (M : Matrix) : Matrix := (List.range M.length).foldl sortRow M

/-- The second loop of `shearSortRound`: `sortColumn` on every column. -/
def columnPhase (M : Matrix) : Matrix := (List.range M.length).foldl sortColumn M

/-- Rows `0..lo-1` hold only zeros and rows `hi..n-1` hold only ones: whatever
is not yet in place lies in the rows `lo..hi-1`. -/
def Band (M : Matrix) (n lo hi : Nat) : Prop :=
  ∀ i j, i < n → j < n → (i < lo → entry M i j = 0) ∧ (hi ≤ i → entry M i j = 1)

/-- The number of zeros among `f s, f (s+1), ..., f (s+w-1)`. -/
def countZeros (f : Nat → Int) : Nat → Nat → Nat
  | _, 0 => 0
  | s, w + 1 => (if f s = 0 then 1 else 0) + countZeros f (s + 1) w

/-- The map `v ↦ 1` if `t ≤ v`, `0` otherwise. -/
def threshold (t : Int) (v : Int) : Int := if t ≤ v then 1 else 0

/-- The matrix with `f` applied to every entry. -/
def mapEntries (f : Int → Int) (M : Matrix) : Matrix := M.map (List.map f)

end ShearSort

/-! # Machine integers and outcomes shared by the array programs -/

namespace MachineInt

/-- Reduction of an integer to the range of a 32-bit `int`, the value the
hardware leaves after an `int` addition, subtraction or multiplication. -/
def wrapInt (x : Int) : Int := (x + 2147483648) % 4294967296 - 2147483648

/-- What a call does: it returns a value, or it reads or writes outside a
vector (`undefined`), or its loop is still running when the step bound of the
embedding is used up (`running`). -/
inductive Outcome (α : Type) where
  | returns (a : α)
  | undefined
  | running
  deriving DecidableEq

/-- The read `v[i]` with an `int` index. -/
def readAt (v : List Int) (i : Int) : Option Int :=
  if 0 ≤ i then v[i.toNat]? else none

/-- The write `v[i] = x` with an `int` index. -/
def writeAt (v : List Int) (i : Int) (x : Int) : Option (List Int) :=
  if 0 ≤ i ∧ i.toNat < v.length then some (v.set i.toNat x) else none

end MachineInt

/-! # The prefix-sum program `parallelPrefixSum.cpp` -/

namespace PrefixSum

open MachineInt

/-- The loop of `upsweep` from index `i` on:
`for (...; i < n; i += step) v[i] += v[i - offset / 2];`.  The first argument
bounds the number of iterations. -/
def upsweepLoop (step offset : Int) : Nat → Int → List Int → Outcome (List Int)
  | 0, _, _ => Outcome.running
  | fuel + 1, i, v =>
    if i < (v.length : Int) then
      match readAt v i, readAt v (i - Int.tdiv offset 2) with
      | some a, some b =>
        match writeAt v i (wrapInt (a + b)) with
        | some w => upsweepLoop step offset fuel (wrapInt (i + step)) w
        | none => Outcome.undefined
      | _, _ => Outcome.undefined
    else Outcome.returns v

/-- Embedding of `upsweep(v, step, offset)`; the result is the vector left in `v`. -/
def upsweep (v : List Int) (step offset : Int) : Outcome (List Int) :=
  upsweepLoop step offset (v.length + 1) (wrapInt (offset - 1)) v

/-- The loop of `downsweep` from index `i` on. -/
def downsweepLoop (step offset : Int) : Nat → Int → List Int → Outcome (List Int)
  | 0, _, _ => Outcome.running
  | fuel + 1, i, v =>
    if i < (v.length : Int) then
      match readAt v (i - Int.tdiv offset 2), readAt v i with
      | some temp, some a =>
        match writeAt v (i - Int.tdiv offset 2) a with
        | some w =>
          match readAt w i with
          | some c =>
            match writeAt w i (wrapInt (c + temp)) with
            | some u => downsweepLoop step offset fuel (wrapInt (i + step)) u
            | none => Outcome.undefined
          | none => Outcome.undefined
        | none => Outcome.undefined
      | _, _ => Outcome.undefined
    else Outcome.returns v

/-- Embedding of `downsweep(v, step, offset)`. -/
def downsweep (v : List Int) (step offset : Int) : Outcome (List Int) :=
  downsweepLoop step offset (v.length + 1) (wrapInt (offset - 1)) v

/-- The first loop of `main`, from `d` on:
`for (int d = 1; d < n; d *= 2) upsweep(v, d * 2, d);` (each thread is joined
right after it is started). -/
def upsweepPhase : Nat → Int → List Int → Outcome (List Int)
  | 0, _, _ => Outcome.running
  | fuel + 1, d, v =>
    if d < (v.length : Int) then
      match upsweep v (wrapInt (d * 2)) d with
      | Outcome.returns w => upsweepPhase fuel (wrapInt (d * 2)) w
      | o => o
    else Outcome.returns v

/-- The second loop of `main`, from `d` on:
`for (int d = n / 2; d >= 1; d /= 2) downsweep(v, d * 2, d);`. -/
def downsweepPhase : Nat → Int → List Int → Outcome (List Int)
  | 0, _, _ => Outcome.running
  | fuel + 1, d, v =>
    if d ≥ 1 then
      match downsweep v (wrapInt (d * 2)) d with
      | Outcome.returns w => downsweepPhase fuel (Int.tdiv d 2) w
      | o => o
    else Outcome.returns v

/-- The vector `main` starts from. -/
def mainInput : List Int := [1, 2, 1, 7, 3, 0, 4, 3]

/-- The statements of `main` that follow the initialisation of `v`, run from the
vector `v`: the vector that is printed. -/
def mainFrom (v : List Int) : Outcome (List Int) :=
  let n : Int := v.length
  match upsweepPhase (v.length + 1) 1 v with
  | Outcome.returns w =>
    match writeAt w (n - 1) 0 with
    | some u => downsweepPhase (v.length + 1) (Int.tdiv n 2) u
    | none => Outcome.undefined
  | o => o

/-- Embedding of `main`: the vector it prints. -/
def main : Outcome (List Int) := mainFrom mainInput

/-- The exclusive prefix sums of `v`: at index `i` the sum of `v[0..i-1]`. -/
def exclusivePrefixSums (v : List Int) : List Int :=
  (List.range v.length).map fun i => (v.take i).sum

end PrefixSum

/-! # The search programs `BsearchSeq.cpp` and `BsearchPall.cpp` -/

namespace BSearch

open MachineInt

/-- The loop of `binarySearch` entered with the given `low` and `high`.  The
first argument bounds the number of iterations. -/
def binarySearchLoop (arr : List Int) (target : Int) : Nat → Int → Int → Outcome Int
  | 0, _, _ => Outcome.running
  | fuel + 1, low, high =>
    if low ≤ high then
      let mid := Int.tdiv (wrapInt (low + high)) 2
      match readAt arr mid with
      | none => Outcome.undefined
      | some x =>
        if x = target then Outcome.returns mid
        else if x < target then binarySearchLoop arr target fuel (wrapInt (mid + 1)) high
        else binarySearchLoop arr target fuel low (wrapInt (mid - 1))
    else Outcome.returns (-1)

/-- Embedding of `binarySearch(arr, target)`.  `arr.size() - 1` is computed in
`size_t` and narrowed to `int`, which is `-1` for the empty vector. -/
def binarySearch (arr : List Int) (target : Int) : Outcome Int :=
  binarySearchLoop arr target (arr.length + 1) 0 (wrapInt ((arr.length : Int) - 1))

/-- The locals `low`, `high` and `found` of `parallelBinarySearch`. -/
structure SearchState where
  low : Int
  high : Int
  found : Int
  deriving DecidableEq

/-- One iteration of the `for` loop of `parallelBinarySearch`, for index `i`;
`none` when it reads outside `arr`. -/
def segmentStep (arr : List Int) (target threads step : Int) (s : SearchState) (i : Int) :
    Option SearchState :=
  let start := wrapInt (s.low + wrapInt (i * step))
  let endIdx := if i = threads - 1 then s.high else wrapInt (wrapInt (start + step) - 1)
  if start > s.high ∨ s.found ≠ -1 then some s
  else
    match readAt arr start with
    | none => none
    | some a =>
      if a = target then some { s with found := start }
      else
        match readAt arr endIdx with
        | none => none
        | some b =>
          if b = target then some { s with found := endIdx }
          else if a < target ∧ target < b then some { s with low := start, high := endIdx }
          else some s

/-- The `for (int i = 0; i < threads; ++i)` loop with its iterations taken in
index order. -/
def segmentLoop (arr : List Int) (target threads step : Int) (s : SearchState) :
    Option SearchState :=
  (List.range threads.toNat).foldlM (fun s i => segmentStep arr target threads step s (i : Int)) s

/-- The `while` loop of `parallelBinarySearch`.  The first argument bounds the
number of iterations. -/
def searchLoop (arr : List Int) (target threads : Int) : Nat → SearchState → Outcome Int
  | 0, _ => Outcome.running
  | fuel + 1, s =>
    if s.low ≤ s.high ∧ s.found = -1 then
      let len := wrapInt (wrapInt (s.high - s.low) + 1)
      let step := Int.tdiv len threads
      let step := if step < 1 then 1 else step
      match segmentLoop arr target threads step s with
      | none => Outcome.undefined
      | some t => if step = 1 then Outcome.returns t.found else searchLoop arr target threads fuel t
    else Outcome.returns s.found

/-- Embedding of `parallelBinarySearch(arr, target, threads)` run for at most
`fuel` iterations of its `while` loop.  A division by `threads = 0` is
undefined. -/
def parallelBinarySearch (fuel : Nat) (arr : List Int) (target threads : Int) : Outcome Int :=
  if threads = 0 then Outcome.undefined
  else
    let n := wrapInt (arr.length : Int)
    searchLoop arr target threads fuel { low := 0, high := wrapInt (n - 1), found := -1 }

end BSearch

namespace ShearSort
/-! ## The two calls of `std::sort` -/

theorem stdSort_perm (l : List Int) : (stdSort l).Perm l :=
  List.perm_insertionSort _ l

theorem stdSort_sorted (l : List Int) : List.Sorted (· ≤ ·) (stdSort l) :=
  List.sorted_insertionSort _ l

theorem stdSort_length (l : List Int) : (stdSort l).length = l.length :=
  (stdSort_perm l).length_eq

theorem stdSort_of_sorted {l : List Int} (h : List.Sorted (· ≤ ·) l) : stdSort l = l :=
  List.Sorted.insertionSort_eq h

theorem stdSortReverse_perm (l : List Int) : (stdSortReverse l).Perm l :=
  ((List.reverse_perm _).trans (stdSort_perm _)).trans (List.reverse_perm l)

theorem stdSortReverse_sorted (l : List Int) : List.Sorted (· ≥ ·) (stdSortReverse l) := by
  unfold stdSortReverse List.Sorted
  rw [List.pairwise_reverse]
  exact stdSort_sorted _

theorem stdSortReverse_length (l : List Int) : (stdSortReverse l).length = l.length :=
  (stdSortReverse_perm l).length_eq

theorem stdSortReverse_of_sorted {l : List Int} (h : List.Sorted (· ≥ ·) l) :
    stdSortReverse l = l := by
  unfold stdSortReverse
  have h2 : List.Sorted (· ≤ ·) l.reverse := by
    unfold List.Sorted
    rw [List.pairwise_reverse]
    exact h
  rw [stdSort_of_sorted h2, List.reverse_reverse]

/-! ## Rows -/

theorem sortRow_eq (M : Matrix) (r : Nat) :
    sortRow M r = M.set r (sortedRow r (M.getD r [])) := by
  unfold sortRow sortedRow
  split <;> rfl

theorem sortedRow_perm (r : Nat) (l : List Int) : (sortedRow r l).Perm l := by
  unfold sortedRow
  split
  · exact stdSort_perm l
  · exact stdSortReverse_perm l

theorem sortedRow_length (r : Nat) (l : List Int) : (sortedRow r l).length = l.length :=
  (sortedRow_perm r l).length_eq

theorem sortRow_length (M : Matrix) (r : Nat) : (sortRow M r).length = M.length := by
  rw [sortRow_eq, List.length_set]

theorem isSquare_set {M : Matrix} {n : Nat} (h : IsSquare M n) (r : Nat) {row : List Int}
    (hrow : row.length = n) : IsSquare (M.set r row) n := by
  refine ⟨by rw [List.length_set]; exact h.1, ?_⟩
  intro x hx
  rcases List.mem_or_eq_of_mem_set hx with hx | hx
  · exact h.2 x hx
  · rw [hx]; exact hrow

theorem isSquare_getD {M : Matrix} {n : Nat} (h : IsSquare M n) {i : Nat} (hi : i < n) :
    (M.getD i []).length = n := by
  apply h.2
  have hi2 : i < M.length := by rw [h.1]; exact hi
  rw [List.getD_eq_getElem _ _ hi2]
  exact List.getElem_mem hi2

theorem sortRow_isSquare {M : Matrix} {n : Nat} (h : IsSquare M n) {r : Nat} (hr : r < n) :
    IsSquare (sortRow M r) n := by
  rw [sortRow_eq]
  exact isSquare_set h r (by rw [sortedRow_length, isSquare_getD h hr])

/-- Replacing a row by a rearrangement of itself rearranges the entries. -/
theorem flatten_set_perm : ∀ (M : Matrix) (r : Nat) (row : List Int),
    row.Perm (M.getD r []) → r < M.length → (M.set r row).flatten.Perm M.flatten
  | [], _, _, _, hr => by simp at hr
  | x :: M, 0, row, h, _ => by
    simp only [List.set_cons_zero, List.flatten_cons]
    exact List.Perm.append_right _ (by simpa using h)
  | x :: M, r + 1, row, h, hr => by
    simp only [List.set_cons_succ, List.flatten_cons]
    exact List.Perm.append_left _
      (flatten_set_perm M r row (by simpa using h) (by simpa using hr))

theorem sortRow_flatten_perm (M : Matrix) {r : Nat} (hr : r < M.length) :
    (sortRow M r).flatten.Perm M.flatten := by
  rw [sortRow_eq]
  exact flatten_set_perm M r _ (sortedRow_perm _ _) hr


/-! ## Columns -/

/-- The write-back loop of `sortColumn` after its first `k` iterations: rows
`0..k-1` carry the new value in column `c`, the other rows are untouched. -/
theorem writeBack_spec (c : Nat) (s : List Int) (M : Matrix) : ∀ k, k ≤ M.length →
    ((List.range k).foldl (fun M i => setEntry M i c (s.getD i 0)) M).length = M.length ∧
    ∀ i, ((List.range k).foldl (fun M i => setEntry M i c (s.getD i 0)) M).getD i [] =
      if i < k then (M.getD i []).set c (s.getD i 0) else M.getD i [] := by
  intro k
  induction k with
  | zero => intro _; simp
  | succ k ih =>
    intro hk
    obtain ⟨hlen, hrows⟩ := ih (by omega)
    rw [List.range_succ, List.foldl_append]
    simp only [List.foldl_cons, List.foldl_nil]
    generalize (List.range k).foldl (fun M i => setEntry M i c (s.getD i 0)) M = R at hlen hrows
    refine ⟨by unfold setEntry; rw [List.length_set]; exact hlen, ?_⟩
    intro i
    unfold setEntry
    by_cases hik : i = k
    · subst hik
      have h1 := hrows i
      simp only [Nat.lt_irrefl, if_false] at h1
      rw [h1]
      simp [List.getD_eq_getElem?_getD, List.getElem?_set, hlen, show i < M.length by omega]
    · have h1 := hrows i
      simp only [List.getD_eq_getElem?_getD] at h1 ⊢
      rw [List.getElem?_set_ne (by omega), h1]
      by_cases hlt : i < k
      · simp [hlt, show i < k + 1 by omega]
      · simp [hlt, show ¬ i < k + 1 by omega]

theorem sortColumn_length (M : Matrix) (c : Nat) : (sortColumn M c).length = M.length :=
  (writeBack_spec c _ M M.length (Nat.le_refl _)).1

/-- Row `i` after `sortColumn(M, c)`: the old row with position `c` overwritten
by the `i`-th smallest value of the old column. -/
theorem sortColumn_getD (M : Matrix) (c i : Nat) :
    (sortColumn M c).getD i [] = (M.getD i []).set c ((stdSort (column M c)).getD i 0) := by
  have h := (writeBack_spec c (stdSort (column M c)) M M.length (Nat.le_refl _)).2 i
  unfold sortColumn
  unfold column at h ⊢
  simp only at h ⊢
  rw [h]
  split
  · rfl
  · rename_i hi
    simp [List.getD_eq_getElem?_getD, List.getElem?_eq_none (Nat.le_of_not_lt hi)]

theorem sortColumn_isSquare {M : Matrix} {n : Nat} (h : IsSquare M n) (c : Nat) :
    IsSquare (sortColumn M c) n := by
  refine ⟨by rw [sortColumn_length]; exact h.1, ?_⟩
  intro row hrow
  obtain ⟨i, hi, rfl⟩ := List.getElem_of_mem hrow
  have h2 := sortColumn_getD M c i
  rw [List.getD_eq_getElem _ _ hi] at h2
  rw [h2, List.length_set]
  rw [sortColumn_length] at hi
  exact isSquare_getD h (by rw [← h.1]; exact hi)

theorem column_length (M : Matrix) (c : Nat) : (column M c).length = M.length := by
  simp [column]

theorem column_getD (M : Matrix) (c i : Nat) (hi : i < M.length) :
    (column M c).getD i 0 = entry M i c := by
  simp [column, List.getD_eq_getElem?_getD, List.getElem?_map, List.getElem?_range hi]

theorem entry_sortColumn_of_ne (M : Matrix) {c j : Nat} (i : Nat) (h : j ≠ c) :
    entry (sortColumn M c) i j = entry M i j := by
  unfold entry
  rw [sortColumn_getD]
  simp only [List.getD_eq_getElem?_getD]
  rw [List.getElem?_set_ne (Ne.symm h)]

theorem entry_sortColumn_self {M : Matrix} {n : Nat} (h : IsSquare M n) {c i : Nat}
    (hc : c < n) (hi : i < n) :
    entry (sortColumn M c) i c = (stdSort (column M c)).getD i 0 := by
  unfold entry
  rw [sortColumn_getD]
  have hl := isSquare_getD h hi
  rw [List.getD_eq_getElem?_getD] at hl
  simp [List.getD_eq_getElem?_getD, List.getElem?_set, hl, hc]

theorem column_sortColumn_of_ne (M : Matrix) {c j : Nat} (h : j ≠ c) :
    column (sortColumn M c) j = column M j := by
  unfold column
  rw [sortColumn_length]
  exact List.map_congr_left fun i _ => entry_sortColumn_of_ne M i h

/-- After `sortColumn(M, c)` column `c` is the sorted old column. -/
theorem column_sortColumn_self {M : Matrix} {n : Nat} (h : IsSquare M n) {c : Nat}
    (hc : c < n) : column (sortColumn M c) c = stdSort (column M c) := by
  apply List.ext_getElem
  · rw [column_length, sortColumn_length, stdSort_length, column_length]
  · intro i h1 h2
    rw [column_length, sortColumn_length] at h1
    have e1 := column_getD (sortColumn M c) c i (by rw [sortColumn_length]; exact h1)
    rw [List.getD_eq_getElem _ _ (by rw [column_length, sortColumn_length]; exact h1)] at e1
    rw [e1, entry_sortColumn_self h hc (by rw [← h.1]; exact h1),
      List.getD_eq_getElem _ _ h2]


theorem set_perm_cons_eraseIdx (x : List Int) (c : Nat) (v : Int) (hc : c < x.length) :
    (x.set c v).Perm (v :: x.eraseIdx c) := by
  rw [List.set_eq_take_append_cons_drop, if_pos hc, List.eraseIdx_eq_take_drop_succ]
  exact List.perm_middle

/-- Entries of a matrix whose column `c` holds the values `s`, split into that
column and the rest. -/
theorem flatten_split_column (c : Nat) : ∀ (M R : Matrix) (s : List Int),
    R.length = M.length → s.length = M.length →
    (∀ row ∈ M, c < row.length) →
    (∀ i, i < M.length → R.getD i [] = (M.getD i []).set c (s.getD i 0)) →
    R.flatten.Perm ((M.map fun row => row.eraseIdx c).flatten ++ s)
  | [], R, s, hR, hs, _, _ => by
    have h1 : R = [] := List.length_eq_zero.mp hR
    have h2 : s = [] := List.length_eq_zero.mp hs
    subst h1 h2
    simp
  | x :: M, [], _, hR, _, _, _ => by simp at hR
  | x :: M, _ :: _, [], _, hs, _, _ => by simp at hs
  | x :: M, y :: R, v :: s, hR, hs, hc, hrows => by
    have hy : y = x.set c v := by simpa using hrows 0 (by simp)
    have ih := flatten_split_column c M R s (by simpa using hR) (by simpa using hs)
      (fun row hrow => hc row (List.mem_cons_of_mem _ hrow))
      (fun i hi => by simpa using hrows (i + 1) (by simpa using hi))
    have hx := set_perm_cons_eraseIdx x c v (hc x (List.mem_cons_self _ _))
    simp only [List.flatten_cons, List.map_cons]
    rw [hy]
    refine (List.Perm.append hx ih).trans ?_
    simp only [List.cons_append, List.append_assoc]
    refine List.perm_middle.symm.trans ?_
    exact List.Perm.append_left _ List.perm_middle.symm

theorem getD_set_self (x : List Int) (c : Nat) : x.set c (x.getD c 0) = x := by
  apply List.ext_getElem?
  intro j
  by_cases hj : c = j
  · subst hj
    by_cases hl : c < x.length
    · simp [List.getElem?_set, hl, List.getD_eq_getElem?_getD]
    · simp [List.getElem?_set, hl, List.getElem?_eq_none (Nat.le_of_not_lt hl)]
  · rw [List.getElem?_set_ne hj]

theorem sortColumn_flatten_perm {M : Matrix} {n : Nat} (h : IsSquare M n) {c : Nat}
    (hc : c < n) : (sortColumn M c).flatten.Perm M.flatten := by
  have hrow : ∀ row ∈ M, c < row.length := fun row hr => by rw [h.2 row hr]; exact hc
  have h1 := flatten_split_column c M (sortColumn M c) (stdSort (column M c))
    (sortColumn_length M c) (by rw [stdSort_length, column_length]) hrow
    (fun i _ => sortColumn_getD M c i)
  have h2 := flatten_split_column c M M (column M c) rfl (column_length M c) hrow
    (fun i hi => by
      rw [column_getD M c i hi]
      exact (getD_set_self _ c).symm)
  exact (h1.trans (List.Perm.append_left _ (stdSort_perm _))).trans h2.symm

/-! ## Loops over all rows and all columns -/

/-- A property kept by every step `f · i` with `i < n` is kept by the loop
`for (i = 0; i < n; ++i) f(M, i)`. -/
theorem foldl_range_preserves (P : Matrix → Prop) (f : Matrix → Nat → Matrix) (n : Nat)
    (hstep : ∀ M i, i < n → P M → P (f M i)) :
    ∀ k, k ≤ n → ∀ M, P M → P ((List.range k).foldl f M) := by
  intro k
  induction k with
  | zero => intro _ M hM; simpa using hM
  | succ k ih =>
    intro hk M hM
    rw [List.range_succ, List.foldl_append]
    exact hstep _ k (by omega) (ih (by omega) M hM)

theorem shearSortRound_isSquare {M : Matrix} {n : Nat} (h : IsSquare M n) :
    IsSquare (shearSortRound M) n := by
  unfold shearSortRound
  simp only [h.1]
  have hrows := foldl_range_preserves (fun R => IsSquare R n) sortRow n
    (fun R i hi hR => sortRow_isSquare hR hi) n (Nat.le_refl _) M h
  exact foldl_range_preserves (fun R => IsSquare R n) sortColumn n
    (fun R i _ hR => sortColumn_isSquare hR i) n (Nat.le_refl _) _ hrows

theorem shearSortRound_flatten_perm {M : Matrix} {n : Nat} (h : IsSquare M n) :
    (shearSortRound M).flatten.Perm M.flatten := by
  unfold shearSortRound
  simp only [h.1]
  have hrows := foldl_range_preserves (fun R => IsSquare R n ∧ R.flatten.Perm M.flatten)
    sortRow n
    (fun R i hi hR => ⟨sortRow_isSquare hR.1 hi,
      (sortRow_flatten_perm R (by rw [hR.1.1]; exact hi)).trans hR.2⟩)
    n (Nat.le_refl _) M ⟨h, List.Perm.refl _⟩
  exact (foldl_range_preserves (fun R => IsSquare R n ∧ R.flatten.Perm M.flatten)
    sortColumn n
    (fun R i hi hR => ⟨sortColumn_isSquare hR.1 i,
      (sortColumn_flatten_perm hR.1 hi).trans hR.2⟩)
    n (Nat.le_refl _) _ hrows).2

/-! ## The round loop -/

/-- With enough fuel the loop leaves the counter at `rounds` and has applied
`shearSortRound` once per counter value in between. -/
theorem shearSortLoop_spec (rounds : Int) : ∀ (fuel : Nat) (r : Int) (M : Matrix),
    r ≤ rounds → (rounds - r).toNat ≤ fuel →
    shearSortLoop rounds fuel r M = (rounds, shearSortRound^[(rounds - r).toNat] M)
  | 0, r, M, h1, h2 => by
    have : r = rounds := by omega
    subst this
    simp [shearSortLoop]
  | fuel + 1, r, M, h1, h2 => by
    unfold shearSortLoop
    by_cases hlt : r < rounds
    · rw [if_pos hlt, shearSortLoop_spec rounds fuel (r + 1) _ (by omega) (by omega)]
      have e : (rounds - r).toNat = (rounds - (r + 1)).toNat + 1 := by omega
      rw [e, Function.iterate_succ_apply]
    · have : r = rounds := by omega
      subst this
      simp

/-- The number of rounds `shearSort` runs on a matrix with `n` rows. -/
theorem shearSortRounds_toNat (n : Nat) :
    (shearSortRounds n).toNat = if n = 0 then 0 else floorLog2 n + 1 := by
  unfold shearSortRounds log2Cast
  split
  · rfl
  · omega

theorem shearSort_eq_iterate (M : Matrix) :
    shearSort M = shearSortRound^[(shearSortRounds M.length).toNat] M := by
  unfold shearSort shearSortRun
  simp only
  by_cases h0 : 0 ≤ shearSortRounds M.length
  · rw [shearSortLoop_spec _ _ 0 M h0 (by simp)]
    simp
  · have e : (shearSortRounds M.length).toNat = 0 := by omega
    rw [e]
    simp [shearSortLoop]

theorem iterate_shearSortRound_isSquare {M : Matrix} {n : Nat} (h : IsSquare M n) (k : Nat) :
    IsSquare (shearSortRound^[k] M) n := by
  induction k with
  | zero => exact h
  | succ k ih =>
    rw [Function.iterate_succ_apply']
    exact shearSortRound_isSquare ih

theorem shearSort_isSquare {M : Matrix} {n : Nat} (h : IsSquare M n) :
    IsSquare (shearSort M) n := by
  rw [shearSort_eq_iterate]
  exact iterate_shearSortRound_isSquare h _


/-! ## Adjacent comparisons and sortedness -/

/-- A list whose neighbours are all related by a transitive relation is
pairwise related. -/
theorem pairwise_of_adjacent (r : Int → Int → Prop)
    (htrans : ∀ a b c, r a b → r b c → r a c) : ∀ (l : List Int),
    (∀ j, 1 ≤ j → j < l.length → r (l.getD (j - 1) 0) (l.getD j 0)) → l.Pairwise r
  | [], _ => List.Pairwise.nil
  | [a], _ => List.pairwise_singleton r a
  | a :: b :: l, h => by
    have ih : (b :: l).Pairwise r := pairwise_of_adjacent r htrans (b :: l) (fun j h1 h2 => by
      have := h (j + 1) (by omega) (by simpa using h2)
      obtain ⟨k, rfl⟩ : ∃ k, j = k + 1 := ⟨j - 1, by omega⟩
      simpa using this)
    have hab : r a b := by simpa using h 1 (by omega) (by simp)
    rw [List.pairwise_cons]
    refine ⟨?_, ih⟩
    intro x hx
    rcases List.mem_cons.mp hx with hx | hx
    · rw [hx]; exact hab
    · exact htrans a b x hab ((List.pairwise_cons.mp ih).1 x hx)

theorem adjacent_of_pairwise (r : Int → Int → Prop) {l : List Int} (h : l.Pairwise r)
    (j : Nat) (h1 : 1 ≤ j) (h2 : j < l.length) : r (l.getD (j - 1) 0) (l.getD j 0) := by
  rw [List.getD_eq_getElem _ _ h2, List.getD_eq_getElem _ _ (show j - 1 < l.length by omega)]
  exact List.pairwise_iff_getElem.mp h (j - 1) j (by omega) h2 (by omega)

/-! ## The validator -/

theorem isSortedSnake_spec (M : Matrix) :
    isSortedSnake M = true ↔
      (∀ i j, i < M.length → 1 ≤ j → j < M.length →
        (i % 2 = 0 → entry M i (j - 1) ≤ entry M i j) ∧
        (i % 2 = 1 → entry M i (j - 1) ≥ entry M i j)) ∧
      (∀ j i, j < M.length → 1 ≤ i → i < M.length → entry M (i - 1) j ≤ entry M i j) := by
  unfold isSortedSnake
  simp only [Bool.and_eq_true, List.all_eq_true, List.mem_range, List.mem_range'_1]
  constructor
  · rintro ⟨hr, hc⟩
    refine ⟨fun i j hi h1 h2 => ?_, fun j i hj h1 h2 => ?_⟩
    · have := hr i hi j ⟨h1, by omega⟩
      by_cases hp : i % 2 = 0
      · simp only [hp, if_true] at this
        exact ⟨fun _ => by simpa using this, fun h => by omega⟩
      · simp only [hp, if_false] at this
        exact ⟨fun h => absurd h hp, fun _ => by simpa using this⟩
    · simpa using hc j hj i ⟨h1, by omega⟩
  · rintro ⟨hr, hc⟩
    refine ⟨fun i hi j hj => ?_, fun j hj i hi => ?_⟩
    · have := hr i j hi hj.1 (by omega)
      by_cases hp : i % 2 = 0
      · simp only [hp, if_true]
        simpa using this.1 hp
      · simp only [hp, if_false]
        simpa using this.2 (by omega)
    · simpa using hc j i hj hi.1 (by omega)

/-! ## Snake-sorted matrices are fixed by a round -/

theorem set_getD_self (M : Matrix) (r : Nat) : M.set r (M.getD r []) = M := by
  apply List.ext_getElem?
  intro j
  by_cases hj : r = j
  · subst hj
    by_cases hl : r < M.length
    · simp [List.getElem?_set, hl, List.getD_eq_getElem?_getD]
    · simp [List.getElem?_set, hl, List.getElem?_eq_none (Nat.le_of_not_lt hl)]
  · rw [List.getElem?_set_ne hj]

/-- A row already ordered in the direction of its index is left as it is. -/
theorem sortRow_of_ordered (M : Matrix) (r : Nat)
    (h : ∀ j, 1 ≤ j → j < (M.getD r []).length →
      (r % 2 = 0 → entry M r (j - 1) ≤ entry M r j) ∧
      (r % 2 = 1 → entry M r (j - 1) ≥ entry M r j)) :
    sortRow M r = M := by
  have key : sortedRow r (M.getD r []) = M.getD r [] := by
    unfold sortedRow
    by_cases hp : r % 2 = 0
    · rw [if_pos hp]
      exact stdSort_of_sorted (pairwise_of_adjacent (· ≤ ·)
        (fun a b c => Int.le_trans) _ (fun j h1 h2 => (h j h1 h2).1 hp))
    · rw [if_neg hp]
      exact stdSortReverse_of_sorted (pairwise_of_adjacent (· ≥ ·)
        (fun a b c hab hbc => Int.le_trans hbc hab) _
        (fun j h1 h2 => (h j h1 h2).2 (by omega)))
  rw [sortRow_eq, key, set_getD_self]

/-- Two matrices with the same number of rows and the same rows are equal. -/
theorem matrix_ext {R M : Matrix} (hlen : R.length = M.length)
    (h : ∀ i, i < M.length → R.getD i [] = M.getD i []) : R = M := by
  apply List.ext_getElem hlen
  intro i h1 h2
  have := h i h2
  rwa [List.getD_eq_getElem _ _ h1, List.getD_eq_getElem _ _ h2] at this

/-- A column already non-decreasing is left as it is. -/
theorem sortColumn_of_ordered (M : Matrix) (c : Nat)
    (h : ∀ i, 1 ≤ i → i < M.length → entry M (i - 1) c ≤ entry M i c) :
    sortColumn M c = M := by
  have hs : stdSort (column M c) = column M c := by
    apply stdSort_of_sorted
    apply pairwise_of_adjacent (· ≤ ·) (fun a b c => Int.le_trans)
    intro j h1 h2
    rw [column_length] at h2
    rw [column_getD M c j h2, column_getD M c (j - 1) (by omega)]
    exact h j h1 h2
  apply matrix_ext (sortColumn_length M c)
  intro i hi
  rw [sortColumn_getD, hs, column_getD M c i hi]
  exact getD_set_self _ c

theorem shearSortRound_of_snake {M : Matrix} {n : Nat} (hM : IsSquare M n)
    (h : isSortedSnake M = true) : shearSortRound M = M := by
  obtain ⟨hr, hc⟩ := (isSortedSnake_spec M).mp h
  rw [hM.1] at hr hc
  unfold shearSortRound
  simp only [hM.1]
  have hrows : (List.range n).foldl sortRow M = M :=
    foldl_range_preserves (fun R => R = M) sortRow n
      (fun R i hi hR => by
        subst hR
        exact sortRow_of_ordered R i (fun j h1 h2 => by
          rw [isSquare_getD hM hi] at h2
          exact hr i j hi h1 h2))
      n (Nat.le_refl _) M rfl
  rw [hrows]
  exact foldl_range_preserves (fun R => R = M) sortColumn n
    (fun R j hj hR => by
      subst hR
      exact sortColumn_of_ordered R j (fun i h1 h2 => by
        rw [hM.1] at h2
        exact hc j i hj h1 h2))
    n (Nat.le_refl _) M rfl

/-! ## Columns after a round -/

/-- The column loop after `k` iterations: the shape is kept and the columns
`0..k-1` are non-decreasing. -/
theorem columnLoop_sorted {n : Nat} : ∀ k, k ≤ n → ∀ M : Matrix, IsSquare M n →
    IsSquare ((List.range k).foldl sortColumn M) n ∧
    ∀ j, j < k → List.Sorted (· ≤ ·) (column ((List.range k).foldl sortColumn M) j) := by
  intro k
  induction k with
  | zero => intro _ M hM; exact ⟨by simpa using hM, fun j hj => absurd hj (Nat.not_lt_zero j)⟩
  | succ k ih =>
    intro hk M hM
    obtain ⟨hsq, hcols⟩ := ih (by omega) M hM
    rw [List.range_succ, List.foldl_append]
    simp only [List.foldl_cons, List.foldl_nil]
    refine ⟨sortColumn_isSquare hsq k, ?_⟩
    intro j hj
    by_cases hjk : j = k
    · subst hjk
      rw [column_sortColumn_self hsq (by omega)]
      exact stdSort_sorted _
    · rw [column_sortColumn_of_ne _ hjk]
      exact hcols j (by omega)

theorem shearSortRound_columns_sorted {M : Matrix} {n : Nat} (hM : IsSquare M n)
    {j : Nat} (hj : j < n) : List.Sorted (· ≤ ·) (column (shearSortRound M) j) := by
  unfold shearSortRound
  simp only [hM.1]
  have hrows := foldl_range_preserves (fun R => IsSquare R n) sortRow n
    (fun R i hi hR => sortRow_isSquare hR hi) n (Nat.le_refl _) M hM
  exact (columnLoop_sorted n (Nat.le_refl _) _ hrows).2 j hj

/-! ## The round count -/

theorem floorLog2Aux_eq_log : ∀ (fuel n : Nat), n ≤ fuel → floorLog2Aux fuel n = Nat.log 2 n
  | 0, n, h => by
    have : n = 0 := by omega
    subst this
    simp [floorLog2Aux]
  | fuel + 1, n, h => by
    unfold floorLog2Aux
    by_cases hn : n < 2
    · rw [if_pos hn, Nat.log_of_lt hn]
    · rw [if_neg hn, Nat.log_of_one_lt_of_le (by omega) (by omega),
        floorLog2Aux_eq_log fuel (n / 2) (by omega)]

theorem floorLog2_eq_log (n : Nat) : floorLog2 n = Nat.log 2 n :=
  floorLog2Aux_eq_log n n (Nat.le_refl _)

theorem iterate_shearSortRound_flatten_perm {M : Matrix} {n : Nat} (h : IsSquare M n)
    (k : Nat) : (shearSortRound^[k] M).flatten.Perm M.flatten := by
  induction k with
  | zero => exact List.Perm.refl _
  | succ k ih =>
    rw [Function.iterate_succ_apply']
    exact (shearSortRound_flatten_perm (iterate_shearSortRound_isSquare h k)).trans ih

theorem sortRow_getD_self (M : Matrix) {r : Nat} (hr : r < M.length) :
    (sortRow M r).getD r [] = sortedRow r (M.getD r []) := by
  rw [sortRow_eq]
  simp [List.getD_eq_getElem?_getD, List.getElem?_set, hr]


/-! ## Frame and independence of the row and column sorts -/

theorem sortRow_getD_of_ne (M : Matrix) {r i : Nat} (h : i ≠ r) :
    (sortRow M r).getD i [] = M.getD i [] := by
  rw [sortRow_eq]
  simp only [List.getD_eq_getElem?_getD]
  rw [List.getElem?_set_ne (Ne.symm h)]

theorem entry_sortRow_of_ne (M : Matrix) {r i : Nat} (j : Nat) (h : i ≠ r) :
    entry (sortRow M r) i j = entry M i j := by
  unfold entry
  rw [sortRow_getD_of_ne M h]

/-- Two row sorts can be exchanged. -/
theorem sortRow_comm (M : Matrix) (a b : Nat) :
    sortRow (sortRow M a) b = sortRow (sortRow M b) a := by
  by_cases hab : a = b
  · rw [hab]
  · rw [sortRow_eq (sortRow M a) b, sortRow_eq (sortRow M b) a,
      sortRow_getD_of_ne M (Ne.symm hab), sortRow_getD_of_ne M hab,
      sortRow_eq M a, sortRow_eq M b]
    exact List.set_comm _ _ _ hab

/-- Two column sorts can be exchanged. -/
theorem sortColumn_comm (M : Matrix) (c d : Nat) :
    sortColumn (sortColumn M c) d = sortColumn (sortColumn M d) c := by
  by_cases hcd : c = d
  · rw [hcd]
  · apply matrix_ext
    · simp only [sortColumn_length]
    · intro i _
      rw [sortColumn_getD, sortColumn_getD, sortColumn_getD, sortColumn_getD,
        column_sortColumn_of_ne M (Ne.symm hcd), column_sortColumn_of_ne M hcd]
      exact List.set_comm _ _ _ hcd

theorem foldl_sortRow_perm (M : Matrix) {l₁ l₂ : List Nat} (h : l₁.Perm l₂) :
    l₁.foldl sortRow M = l₂.foldl sortRow M :=
  List.Perm.foldl_eq' h (fun x _ y _ z => sortRow_comm z x y) M

theorem foldl_sortColumn_perm (M : Matrix) {l₁ l₂ : List Nat} (h : l₁.Perm l₂) :
    l₁.foldl sortColumn M = l₂.foldl sortColumn M :=
  List.Perm.foldl_eq' h (fun x _ y _ z => sortColumn_comm z x y) M

theorem shearSortRoundParallel_eq (M : Matrix) {rowOrder colOrder : List Nat}
    (hr : rowOrder.Perm (List.range M.length)) (hc : colOrder.Perm (List.range M.length)) :
    shearSortRoundParallel rowOrder colOrder M = shearSortRound M := by
  unfold shearSortRoundParallel shearSortRound
  simp only
  rw [foldl_sortRow_perm M hr, foldl_sortColumn_perm _ hc]

theorem shearSortRound_length (M : Matrix) : (shearSortRound M).length = M.length := by
  unfold shearSortRound
  simp only
  have h1 : ∀ (l : List Nat) (R : Matrix), (l.foldl sortRow R).length = R.length := by
    intro l
    induction l with
    | nil => intro R; rfl
    | cons a l ih => intro R; rw [List.foldl_cons, ih, sortRow_length]
  have h2 : ∀ (l : List Nat) (R : Matrix), (l.foldl sortColumn R).length = R.length := by
    intro l
    induction l with
    | nil => intro R; rfl
    | cons a l ih => intro R; rw [List.foldl_cons, ih, sortColumn_length]
  rw [h2, h1]

/-- Under schedules that are orderings of `0..n-1` the parallel loop and the
sequential loop go through the same states. -/
theorem shearSortParallelLoop_eq (sched : Int → List Nat × List Nat) (n : Nat)
    (hs : ∀ r, (sched r).1.Perm (List.range n) ∧ (sched r).2.Perm (List.range n))
    (rounds : Int) : ∀ (fuel : Nat) (r : Int) (M : Matrix), M.length = n →
    shearSortParallelLoop sched rounds fuel r M = shearSortLoop rounds fuel r M
  | 0, r, M, _ => rfl
  | fuel + 1, r, M, hM => by
    unfold shearSortParallelLoop shearSortLoop
    split
    · rw [shearSortRoundParallel_eq M (by rw [hM]; exact (hs r).1)
        (by rw [hM]; exact (hs r).2)]
      exact shearSortParallelLoop_eq sched n hs rounds fuel (r + 1) _
        (by rw [shearSortRound_length, hM])
    · rfl

/-! ## Index accesses stay in bounds on square matrices -/

theorem entryChecked_eq {M : Matrix} {n : Nat} (hM : IsSquare M n) {i j : Nat}
    (hi : i < n) (hj : j < n) : entryChecked M i j = some (entry M i j) := by
  have hi2 : i < M.length := by rw [hM.1]; exact hi
  have hrow : (M[i]).length = n := hM.2 _ (List.getElem_mem hi2)
  unfold entryChecked entry
  rw [List.getElem?_eq_getElem hi2, List.getD_eq_getElem _ _ hi2]
  simp only
  rw [List.getElem?_eq_getElem (by rw [hrow]; exact hj),
    List.getD_eq_getElem _ _ (by rw [hrow]; exact hj)]

theorem setEntry_isSquare {M : Matrix} {n : Nat} (hM : IsSquare M n) (i j : Nat) (v : Int)
    (hi : i < n) : IsSquare (setEntry M i j v) n := by
  unfold setEntry
  exact isSquare_set hM i (by rw [List.length_set]; exact isSquare_getD hM hi)

theorem setEntryChecked_eq {M : Matrix} {n : Nat} (hM : IsSquare M n) {i j : Nat} (v : Int)
    (hi : i < n) (hj : j < n) : setEntryChecked M i j v = some (setEntry M i j v) := by
  have hi2 : i < M.length := by rw [hM.1]; exact hi
  have hrow : (M[i]).length = n := hM.2 _ (List.getElem_mem hi2)
  unfold setEntryChecked setEntry
  rw [List.getElem?_eq_getElem hi2, List.getD_eq_getElem _ _ hi2]
  simp only
  rw [if_pos (by rw [hrow]; exact hj)]

theorem sortRowChecked_eq {M : Matrix} {n : Nat} (hM : IsSquare M n) {r : Nat} (hr : r < n) :
    sortRowChecked M r = some (sortRow M r) := by
  have hr2 : r < M.length := by rw [hM.1]; exact hr
  unfold sortRowChecked sortRow
  rw [List.getElem?_eq_getElem hr2, List.getD_eq_getElem _ _ hr2]
  simp only
  split <;> rfl

/-- A checked loop whose steps all succeed on matrices satisfying an invariant
computes what the unchecked loop computes. -/
theorem forEachChecked_eq (P : Matrix → Prop) (fc : Matrix → Nat → Option Matrix)
    (f : Matrix → Nat → Matrix) (n : Nat)
    (hstep : ∀ M i, i < n → P M → fc M i = some (f M i) ∧ P (f M i)) :
    ∀ (l : List Nat), (∀ i ∈ l, i < n) → ∀ M, P M →
      forEachChecked fc l M = some (l.foldl f M) ∧ P (l.foldl f M)
  | [], _, M, hM => ⟨rfl, hM⟩
  | i :: l, hl, M, hM => by
    obtain ⟨h1, h2⟩ := hstep M i (hl i (List.mem_cons_self _ _)) hM
    unfold forEachChecked
    rw [h1]
    simp only [List.foldl_cons]
    exact forEachChecked_eq P fc f n hstep l
      (fun j hj => hl j (List.mem_cons_of_mem _ hj)) _ h2

theorem gatherChecked_eq {M : Matrix} {n : Nat} (hM : IsSquare M n) {c : Nat} (hc : c < n) :
    ∀ (l : List Nat), (∀ i ∈ l, i < n) →
      gatherChecked M c l = some (l.map fun i => entry M i c)
  | [], _ => rfl
  | i :: l, hl => by
    unfold gatherChecked
    rw [entryChecked_eq hM (hl i (List.mem_cons_self _ _)) hc,
      gatherChecked_eq hM hc l (fun j hj => hl j (List.mem_cons_of_mem _ hj))]
    rfl

theorem sortColumnChecked_eq {M : Matrix} {n : Nat} (hM : IsSquare M n) {c : Nat}
    (hc : c < n) : sortColumnChecked M c = some (sortColumn M c) := by
  unfold sortColumnChecked sortColumn
  simp only [hM.1]
  rw [gatherChecked_eq hM hc _ (fun i hi => List.mem_range.mp hi)]
  simp only
  generalize hs : stdSort ((List.range n).map fun i => entry M i c) = s
  have hlen : s.length = n := by
    rw [← hs, stdSort_length, List.length_map, List.length_range]
  exact (forEachChecked_eq (fun R => IsSquare R n)
    (fun R i =>
      match s[i]? with
      | none => none
      | some v => setEntryChecked R i c v)
    (fun R i => setEntry R i c (s.getD i 0)) n
    (fun R i hi hR => by
      refine ⟨?_, setEntry_isSquare hR i c _ hi⟩
      show (match s[i]? with
        | none => none
        | some v => setEntryChecked R i c v) = some (setEntry R i c (s.getD i 0))
      rw [List.getElem?_eq_getElem (by rw [hlen]; exact hi),
        List.getD_eq_getElem _ _ (by rw [hlen]; exact hi)]
      exact setEntryChecked_eq hR _ hi hc)
    _ (fun i hi => List.mem_range.mp hi) M hM).1

theorem shearSortRoundChecked_eq {M : Matrix} {n : Nat} (hM : IsSquare M n) :
    shearSortRoundChecked M = some (shearSortRound M) := by
  unfold shearSortRoundChecked shearSortRound
  simp only [hM.1]
  obtain ⟨h1, h2⟩ := forEachChecked_eq (fun R => IsSquare R n) sortRowChecked sortRow n
    (fun R i hi hR => ⟨sortRowChecked_eq hR hi, sortRow_isSquare hR hi⟩)
    _ (fun i hi => List.mem_range.mp hi) M hM
  rw [h1]
  simp only
  exact (forEachChecked_eq (fun R => IsSquare R n) sortColumnChecked sortColumn n
    (fun R i hi hR => ⟨sortColumnChecked_eq hR hi, sortColumn_isSquare hR i⟩)
    _ (fun i hi => List.mem_range.mp hi) _ h2).1

theorem shearSortLoopChecked_eq {n : Nat} (rounds : Int) :
    ∀ (fuel : Nat) (r : Int) (M : Matrix), IsSquare M n →
      shearSortLoopChecked rounds fuel r M = some (shearSortLoop rounds fuel r M)
  | 0, _, _, _ => rfl
  | fuel + 1, r, M, hM => by
    unfold shearSortLoopChecked shearSortLoop
    split
    · rw [shearSortRoundChecked_eq hM]
      exact shearSortLoopChecked_eq rounds fuel (r + 1) _ (shearSortRound_isSquare hM)
    · rfl

theorem shearSortChecked_eq {M : Matrix} {n : Nat} (hM : IsSquare M n) :
    shearSortChecked M = some (shearSort M) := by
  unfold shearSortChecked shearSort shearSortRun
  simp only
  rw [shearSortLoopChecked_eq _ _ 0 M hM]

theorem allChecked_eq (p : Nat → Option Bool) (q : Nat → Bool) :
    ∀ (l : List Nat), (∀ i ∈ l, p i = some (q i)) → allChecked p l = some (l.all q)
  | [], _ => rfl
  | i :: l, hl => by
    unfold allChecked
    rw [hl i (List.mem_cons_self _ _)]
    cases hq : q i
    · simp [hq]
    · simp only [List.all_cons, hq, Bool.true_and]
      exact allChecked_eq p q l (fun j hj => hl j (List.mem_cons_of_mem _ hj))

theorem isSortedSnakeChecked_eq {M : Matrix} {n : Nat} (hM : IsSquare M n) :
    isSortedSnakeChecked M = some (isSortedSnake M) := by
  unfold isSortedSnakeChecked isSortedSnake
  simp only [hM.1]
  rw [allChecked_eq _ (fun i => (List.range' 1 (n - 1)).all fun j =>
      if i % 2 = 0 then !decide (entry M i (j - 1) > entry M i j)
      else !decide (entry M i (j - 1) < entry M i j)) (List.range n)
    (fun i hi => allChecked_eq _ _ _ (fun j hj => by
      have hi2 := List.mem_range.mp hi
      have hj2 := List.mem_range'_1.mp hj
      rw [entryChecked_eq hM hi2 (show j - 1 < n by omega),
        entryChecked_eq hM hi2 (show j < n by omega)]
      simp only
      split <;> rfl))]
  rw [allChecked_eq _ (fun j => (List.range' 1 (n - 1)).all fun i =>
      !decide (entry M (i - 1) j > entry M i j)) (List.range n)
    (fun j hj => allChecked_eq _ _ _ (fun i hi => by
      have hj2 := List.mem_range.mp hj
      have hi2 := List.mem_range'_1.mp hi
      rw [entryChecked_eq hM (show i - 1 < n by omega) hj2,
        entryChecked_eq hM (show i < n by omega) hj2]))]
  cases (List.range n).all fun i => (List.range' 1 (n - 1)).all fun j =>
      if i % 2 = 0 then !decide (entry M i (j - 1) > entry M i j)
      else !decide (entry M i (j - 1) < entry M i j) <;> simp

/-! ## The validator and the snake reading -/

theorem snakeFlatten_eq (M : Matrix) :
    snakeFlatten M = ((List.range M.length).map (snakeRow M)).flatten := rfl

theorem entry_mem_row {M : Matrix} {n : Nat} (hM : IsSquare M n) {i j : Nat}
    (hi : i < n) (hj : j < n) : entry M i j ∈ M.getD i [] := by
  have hl := isSquare_getD hM hi
  unfold entry
  rw [List.getD_eq_getElem (M.getD i []) 0 (by rw [hl]; exact hj)]
  exact List.getElem_mem _

theorem entry_mem_snakeRow {M : Matrix} {n : Nat} (hM : IsSquare M n) {i j : Nat}
    (hi : i < n) (hj : j < n) : entry M i j ∈ snakeRow M i := by
  unfold snakeRow
  split
  · exact entry_mem_row hM hi hj
  · exact List.mem_reverse.mpr (entry_mem_row hM hi hj)

theorem mem_snakeRow {M : Matrix} {n : Nat} (hM : IsSquare M n) {i : Nat} (hi : i < n)
    {x : Int} (hx : x ∈ snakeRow M i) : ∃ j, j < n ∧ x = entry M i j := by
  have hl := isSquare_getD hM hi
  have hx2 : x ∈ M.getD i [] := by
    unfold snakeRow at hx
    split at hx
    · exact hx
    · exact List.mem_reverse.mp hx
  obtain ⟨j, hj, rfl⟩ := List.getElem_of_mem hx2
  refine ⟨j, by rw [← hl]; exact hj, ?_⟩
  unfold entry
  rw [List.getD_eq_getElem (M.getD i []) 0 hj]

/-- In a row whose neighbours are non-decreasing, entries grow with the column. -/
theorem row_mono_of_adjacent (M : Matrix) (n i : Nat)
    (h : ∀ j, 1 ≤ j → j < n → entry M i (j - 1) ≤ entry M i j) (a : Nat) :
    ∀ k, a + k < n → entry M i a ≤ entry M i (a + k)
  | 0, _ => Int.le_refl _
  | k + 1, hk =>
    Int.le_trans (row_mono_of_adjacent M n i h a k (by omega))
      (by simpa using h (a + (k + 1)) (by omega) hk)

/-- In a row whose neighbours are non-increasing, entries shrink with the column. -/
theorem row_anti_of_adjacent (M : Matrix) (n i : Nat)
    (h : ∀ j, 1 ≤ j → j < n → entry M i (j - 1) ≥ entry M i j) (a : Nat) :
    ∀ k, a + k < n → entry M i (a + k) ≤ entry M i a
  | 0, _ => Int.le_refl _
  | k + 1, hk =>
    Int.le_trans (by simpa using h (a + (k + 1)) (by omega) hk)
      (row_anti_of_adjacent M n i h a k (by omega))

/-- Under the two conditions of the validator every entry of a row is at most
every entry of every later row. -/
theorem rows_ordered_of_conditions (M : Matrix) (n : Nat)
    (hr : ∀ i j, i < n → 1 ≤ j → j < n →
      (i % 2 = 0 → entry M i (j - 1) ≤ entry M i j) ∧
      (i % 2 = 1 → entry M i (j - 1) ≥ entry M i j))
    (hc : ∀ j i, j < n → 1 ≤ i → i < n → entry M (i - 1) j ≤ entry M i j)
    (i a b : Nat) (ha : a < n) (hb : b < n) :
    ∀ d, i + d + 1 < n → entry M i a ≤ entry M (i + d + 1) b
  | 0, hd => by
    by_cases hp : i % 2 = 0
    · have h1 := row_mono_of_adjacent M n i (fun j h1 h2 => (hr i j (by omega) h1 h2).1 hp)
        a (n - 1 - a) (by omega)
      have h2 := hc (n - 1) (i + 1) (by omega) (by omega) hd
      have h3 := row_anti_of_adjacent M n (i + 1)
        (fun j h1 h2 => (hr (i + 1) j hd h1 h2).2 (by omega)) b (n - 1 - b) (by omega)
      rw [show a + (n - 1 - a) = n - 1 by omega] at h1
      rw [show b + (n - 1 - b) = n - 1 by omega] at h3
      rw [show i + 1 - 1 = i by omega] at h2
      exact Int.le_trans h1 (Int.le_trans h2 h3)
    · have h1 := row_anti_of_adjacent M n i
        (fun j h1 h2 => (hr i j (by omega) h1 h2).2 (by omega)) 0 a (by omega)
      have h2 := hc 0 (i + 1) (by omega) (by omega) hd
      have h3 := row_mono_of_adjacent M n (i + 1)
        (fun j h1 h2 => (hr (i + 1) j hd h1 h2).1 (by omega)) 0 b (by omega)
      rw [Nat.zero_add] at h1 h3
      rw [show i + 1 - 1 = i by omega] at h2
      exact Int.le_trans h1 (Int.le_trans h2 h3)
  | d + 1, hd => by
    have h1 := rows_ordered_of_conditions M n hr hc i a b ha hb d (by omega)
    have h2 := hc b (i + (d + 1) + 1) hb (by omega) hd
    rw [show i + (d + 1) + 1 - 1 = i + d + 1 by omega] at h2
    exact Int.le_trans h1 h2

theorem snakeRow_sorted_iff {M : Matrix} {n : Nat} (hM : IsSquare M n) {i : Nat} (hi : i < n) :
    List.Pairwise (· ≤ ·) (snakeRow M i) ↔
      ∀ j, 1 ≤ j → j < n →
        (i % 2 = 0 → entry M i (j - 1) ≤ entry M i j) ∧
        (i % 2 = 1 → entry M i (j - 1) ≥ entry M i j) := by
  have hl := isSquare_getD hM hi
  unfold snakeRow
  by_cases hp : i % 2 = 0
  · rw [if_pos hp]
    constructor
    · intro h j h1 h2
      exact ⟨fun _ => adjacent_of_pairwise (· ≤ ·) h j h1 (by rw [hl]; exact h2),
        fun h => by omega⟩
    · intro h
      exact pairwise_of_adjacent (· ≤ ·) (fun a b c => Int.le_trans) _
        (fun j h1 h2 => (h j h1 (by rw [← hl]; exact h2)).1 hp)
  · rw [if_neg hp, List.pairwise_reverse]
    constructor
    · intro h j h1 h2
      exact ⟨fun h => absurd h hp,
        fun _ => adjacent_of_pairwise (fun a b => b ≤ a) h j h1 (by rw [hl]; exact h2)⟩
    · intro h
      exact pairwise_of_adjacent (fun a b => b ≤ a)
        (fun a b c hab hbc => Int.le_trans hbc hab) _
        (fun j h1 h2 => (h j h1 (by rw [← hl]; exact h2)).2 (by omega))

theorem isSortedSnake_iff_snakeFlatten {M : Matrix} {n : Nat} (hM : IsSquare M n) :
    isSortedSnake M = true ↔ List.Sorted (· ≤ ·) (snakeFlatten M) := by
  rw [isSortedSnake_spec, snakeFlatten_eq, hM.1]
  unfold List.Sorted
  rw [List.pairwise_flatten, List.pairwise_map]
  constructor
  · rintro ⟨hr, hc⟩
    refine ⟨?_, ?_⟩
    · intro l hl
      obtain ⟨i, hi, rfl⟩ := List.mem_map.mp hl
      have hi2 := List.mem_range.mp hi
      exact (snakeRow_sorted_iff hM hi2).mpr (fun j h1 h2 => hr i j hi2 h1 h2)
    · refine List.Pairwise.imp_of_mem ?_ (List.pairwise_lt_range n)
      intro i1 i2 h1 h2 hlt x hx y hy
      have hi1 := List.mem_range.mp h1
      have hi2 := List.mem_range.mp h2
      obtain ⟨a, ha, rfl⟩ := mem_snakeRow hM hi1 hx
      obtain ⟨b, hb, rfl⟩ := mem_snakeRow hM hi2 hy
      have := rows_ordered_of_conditions M n hr hc i1 a b ha hb (i2 - i1 - 1) (by omega)
      rwa [show i1 + (i2 - i1 - 1) + 1 = i2 by omega] at this
  · rintro ⟨hrows, hcross⟩
    refine ⟨?_, ?_⟩
    · intro i j hi h1 h2
      exact (snakeRow_sorted_iff hM hi).mp
        (hrows _ (List.mem_map.mpr ⟨i, List.mem_range.mpr hi, rfl⟩)) j h1 h2
    · intro j i hj h1 h2
      have := List.pairwise_iff_getElem.mp hcross (i - 1) i
        (by rw [List.length_range]; omega) (by rw [List.length_range]; exact h2) (by omega)
      simp only [List.getElem_range] at this
      exact this _ (entry_mem_snakeRow hM (by omega) hj) _ (entry_mem_snakeRow hM h2 hj)

/-! ## Sorting lists of zeros and ones -/

theorem count_zero_add_count_one : ∀ {l : List Int}, IsBinaryList l →
    l.count 0 + l.count 1 = l.length
  | [], _ => rfl
  | x :: l, h => by
    have ih := count_zero_add_count_one (l := l) (fun y hy => h y (List.mem_cons_of_mem _ hy))
    rcases h x (List.mem_cons_self _ _) with hx | hx
    · subst hx
      simp only [List.count_cons_self, List.length_cons]
      rw [List.count_cons_of_ne (by decide)]
      omega
    · subst hx
      simp only [List.count_cons_self, List.length_cons]
      rw [List.count_cons_of_ne (by decide)]
      omega

theorem binary_perm_replicate {l : List Int} (h : IsBinaryList l) :
    l.Perm (List.replicate (l.count 0) 0 ++ List.replicate (l.length - l.count 0) 1) := by
  rw [List.perm_iff_count]
  intro a
  have hc := count_zero_add_count_one h
  rw [List.count_append, List.count_replicate, List.count_replicate]
  by_cases h0 : a = 0
  · subst h0
    simp
  · by_cases h1 : a = 1
    · subst h1
      simp
      omega
    · have hn : a ∉ l := fun hm => by
        rcases h a hm with e | e
        · exact h0 e
        · exact h1 e
      rw [List.count_eq_zero.mpr hn]
      have e0 : ((0 : Int) == a) = false := by simpa using Ne.symm h0
      have e1 : ((1 : Int) == a) = false := by simpa using Ne.symm h1
      simp [e0, e1]

theorem replicate_zero_one_sorted (a b : Nat) :
    List.Sorted (· ≤ ·) (List.replicate a (0 : Int) ++ List.replicate b 1) := by
  unfold List.Sorted
  rw [List.pairwise_append]
  refine ⟨List.pairwise_replicate.mpr (Or.inr (Int.le_refl _)),
    List.pairwise_replicate.mpr (Or.inr (Int.le_refl _)), ?_⟩
  intro x hx y hy
  rw [List.eq_of_mem_replicate hx, List.eq_of_mem_replicate hy]
  decide

theorem stdSort_binary {l : List Int} (h : IsBinaryList l) :
    stdSort l = List.replicate (l.count 0) 0 ++ List.replicate (l.length - l.count 0) 1 :=
  List.eq_of_perm_of_sorted ((stdSort_perm l).trans (binary_perm_replicate h))
    (stdSort_sorted l) (replicate_zero_one_sorted _ _)

theorem stdSortReverse_binary {l : List Int} (h : IsBinaryList l) :
    stdSortReverse l =
      List.replicate (l.length - l.count 0) 1 ++ List.replicate (l.count 0) 0 := by
  unfold stdSortReverse
  have hr : IsBinaryList l.reverse := fun x hx => h x (List.mem_reverse.mp hx)
  rw [stdSort_binary hr, List.length_reverse, List.count_reverse, List.reverse_append,
    List.reverse_replicate, List.reverse_replicate]

theorem stdSort_binary_getD {l : List Int} (h : IsBinaryList l) {j : Nat}
    (hj : j < l.length) : (stdSort l).getD j 0 = if j < l.count 0 then 0 else 1 := by
  rw [stdSort_binary h, List.getD_eq_getElem?_getD]
  by_cases hlt : j < l.count 0
  · rw [if_pos hlt, List.getElem?_append_left (by simpa using hlt),
      List.getElem?_replicate_of_lt hlt]
    rfl
  · rw [if_neg hlt, List.getElem?_append_right (by simpa using hlt),
      List.getElem?_replicate_of_lt (by simp; omega)]
    rfl

theorem stdSortReverse_binary_getD {l : List Int} (h : IsBinaryList l) {j : Nat}
    (hj : j < l.length) :
    (stdSortReverse l).getD j 0 = if l.length - l.count 0 ≤ j then 0 else 1 := by
  have hc := List.count_le_length 0 l
  rw [stdSortReverse_binary h, List.getD_eq_getElem?_getD]
  by_cases hle : l.length - l.count 0 ≤ j
  · rw [if_pos hle, List.getElem?_append_right (by simpa using hle),
      List.getElem?_replicate_of_lt (by simp; omega)]
    rfl
  · rw [if_neg hle, List.getElem?_append_left (by simp; omega),
      List.getElem?_replicate_of_lt (by omega)]
    rfl

/-! ## The two phases of a round, entry by entry -/

theorem rowLoop_getD {M : Matrix} {n : Nat} (hM : IsSquare M n) : ∀ k, k ≤ n →
    IsSquare ((List.range k).foldl sortRow M) n ∧
    ∀ i, ((List.range k).foldl sortRow M).getD i [] =
      if i < k then sortedRow i (M.getD i []) else M.getD i [] := by
  intro k
  induction k with
  | zero => intro _; exact ⟨by simpa using hM, fun i => by simp⟩
  | succ k ih =>
    intro hk
    obtain ⟨hsq, hrows⟩ := ih (by omega)
    rw [List.range_succ, List.foldl_append]
    simp only [List.foldl_cons, List.foldl_nil]
    refine ⟨sortRow_isSquare hsq (by omega), fun i => ?_⟩
    by_cases hik : i = k
    · subst hik
      rw [sortRow_getD_self _ (by rw [hsq.1]; omega), hrows i, if_neg (Nat.lt_irrefl i),
        if_pos (Nat.lt_succ_self i)]
    · rw [sortRow_getD_of_ne _ hik, hrows i]
      by_cases hlt : i < k
      · rw [if_pos hlt, if_pos (by omega)]
      · rw [if_neg hlt, if_neg (by omega)]

theorem rowPhase_isSquare {M : Matrix} {n : Nat} (hM : IsSquare M n) :
    IsSquare (rowPhase M) n := by
  unfold rowPhase
  rw [hM.1]
  exact (rowLoop_getD hM n (Nat.le_refl _)).1

theorem rowPhase_getD {M : Matrix} {n : Nat} (hM : IsSquare M n) {i : Nat} (hi : i < n) :
    (rowPhase M).getD i [] = sortedRow i (M.getD i []) := by
  unfold rowPhase
  rw [hM.1, (rowLoop_getD hM n (Nat.le_refl _)).2 i, if_pos hi]

theorem columnLoop_column {M : Matrix} {n : Nat} (hM : IsSquare M n) : ∀ k, k ≤ n →
    IsSquare ((List.range k).foldl sortColumn M) n ∧
    ∀ j, column ((List.range k).foldl sortColumn M) j =
      if j < k then stdSort (column M j) else column M j := by
  intro k
  induction k with
  | zero => intro _; exact ⟨by simpa using hM, fun j => by simp⟩
  | succ k ih =>
    intro hk
    obtain ⟨hsq, hcols⟩ := ih (by omega)
    rw [List.range_succ, List.foldl_append]
    simp only [List.foldl_cons, List.foldl_nil]
    refine ⟨sortColumn_isSquare hsq k, fun j => ?_⟩
    by_cases hjk : j = k
    · subst hjk
      rw [column_sortColumn_self hsq (by omega), hcols j, if_neg (Nat.lt_irrefl j),
        if_pos (Nat.lt_succ_self j)]
    · rw [column_sortColumn_of_ne _ hjk, hcols j]
      by_cases hlt : j < k
      · rw [if_pos hlt, if_pos (by omega)]
      · rw [if_neg hlt, if_neg (by omega)]

theorem columnPhase_isSquare {M : Matrix} {n : Nat} (hM : IsSquare M n) :
    IsSquare (columnPhase M) n := by
  unfold columnPhase
  rw [hM.1]
  exact (columnLoop_column hM n (Nat.le_refl _)).1

theorem columnPhase_column {M : Matrix} {n : Nat} (hM : IsSquare M n) {j : Nat} (hj : j < n) :
    column (columnPhase M) j = stdSort (column M j) := by
  unfold columnPhase
  rw [hM.1, (columnLoop_column hM n (Nat.le_refl _)).2 j, if_pos hj]

theorem shearSortRound_eq_phases {M : Matrix} {n : Nat} (hM : IsSquare M n) :
    shearSortRound M = columnPhase (rowPhase M) := by
  have h := (rowPhase_isSquare hM).1
  unfold shearSortRound columnPhase
  simp only
  rw [h]
  unfold rowPhase
  rw [hM.1]

theorem entry_columnPhase {M : Matrix} {n : Nat} (hM : IsSquare M n) {i j : Nat}
    (hi : i < n) (hj : j < n) :
    entry (columnPhase M) i j = (stdSort (column M j)).getD i 0 := by
  rw [← column_getD (columnPhase M) j i (by rw [(columnPhase_isSquare hM).1]; exact hi),
    columnPhase_column hM hj]

theorem entry_rowPhase {M : Matrix} {n : Nat} (hM : IsSquare M n) {i : Nat}
    (hi : i < n) (j : Nat) :
    entry (rowPhase M) i j = (sortedRow i (M.getD i [])).getD j 0 := by
  unfold entry
  rw [rowPhase_getD hM hi]

theorem getD_mem_or_nil (M : Matrix) (i : Nat) : M.getD i [] ∈ M ∨ M.getD i [] = [] := by
  by_cases hi : i < M.length
  · left
    rw [List.getD_eq_getElem _ _ hi]
    exact List.getElem_mem hi
  · right
    simp [List.getD_eq_getElem?_getD, List.getElem?_eq_none (Nat.le_of_not_lt hi)]

theorem isBinary_getD {M : Matrix} (hb : IsBinary M) (i : Nat) : IsBinaryList (M.getD i []) := by
  rcases getD_mem_or_nil M i with h | h
  · exact hb _ h
  · rw [h]
    intro x hx
    simp at hx

theorem entry_binary {M : Matrix} {n : Nat} (hM : IsSquare M n) (hb : IsBinary M) {i j : Nat}
    (hi : i < n) (hj : j < n) : entry M i j = 0 ∨ entry M i j = 1 :=
  isBinary_getD hb i _ (entry_mem_row hM hi hj)

/-- A square matrix whose entries are all `0` or `1` is binary. -/
theorem isBinary_of_entries {M : Matrix} {n : Nat} (hM : IsSquare M n)
    (h : ∀ i j, i < n → j < n → entry M i j = 0 ∨ entry M i j = 1) : IsBinary M := by
  intro row hrow x hx
  obtain ⟨i, hi, rfl⟩ := List.getElem_of_mem hrow
  obtain ⟨j, hj, rfl⟩ := List.getElem_of_mem hx
  have hi2 : i < n := by rw [← hM.1]; exact hi
  have hl : (M[i]).length = n := hM.2 _ (List.getElem_mem hi)
  have := h i j hi2 (by rw [← hl]; exact hj)
  unfold entry at this
  rw [List.getD_eq_getElem M [] hi, List.getD_eq_getElem (M[i]) 0 hj] at this
  exact this

/-- Where the zeros of row `i` are after the row phase: in the first columns
of an even row, in the last columns of an odd row. -/
theorem entry_rowPhase_binary {M : Matrix} {n : Nat} (hM : IsSquare M n) (hb : IsBinary M)
    {i j : Nat} (hi : i < n) (hj : j < n) :
    entry (rowPhase M) i j =
      if i % 2 = 0 then (if j < (M.getD i []).count 0 then 0 else 1)
      else (if n - (M.getD i []).count 0 ≤ j then 0 else 1) := by
  have hl := isSquare_getD hM hi
  rw [entry_rowPhase hM hi]
  unfold sortedRow
  by_cases hp : i % 2 = 0
  · rw [if_pos hp, if_pos hp, stdSort_binary_getD (isBinary_getD hb i) (by rw [hl]; exact hj)]
  · rw [if_neg hp, if_neg hp,
      stdSortReverse_binary_getD (isBinary_getD hb i) (by rw [hl]; exact hj), hl]

theorem count_zero_of_all_zero {l : List Int} (h : ∀ x ∈ l, x = 0) : l.count 0 = l.length := by
  rw [List.count_eq_length]
  intro x hx
  exact (h x hx).symm

theorem count_zero_of_all_one {l : List Int} (h : ∀ x ∈ l, x = 1) : l.count 0 = 0 := by
  rw [List.count_eq_zero]
  intro hx
  exact absurd (h 0 hx) (by decide)

theorem mem_row {M : Matrix} {n : Nat} (hM : IsSquare M n) {i : Nat} (hi : i < n)
    {x : Int} (hx : x ∈ M.getD i []) : ∃ j, j < n ∧ x = entry M i j := by
  have hl := isSquare_getD hM hi
  obtain ⟨j, hj, rfl⟩ := List.getElem_of_mem hx
  refine ⟨j, by rw [← hl]; exact hj, ?_⟩
  unfold entry
  rw [List.getD_eq_getElem (M.getD i []) 0 hj]

/-- The row phase keeps the rows that hold only zeros or only ones. -/
theorem rowPhase_band {M : Matrix} {n lo up : Nat} (hM : IsSquare M n) (hb : IsBinary M)
    (hband : Band M n lo up) : Band (rowPhase M) n lo up := by
  intro i j hi hj
  have hl := isSquare_getD hM hi
  have hc := List.count_le_length 0 (M.getD i [])
  rw [entry_rowPhase_binary hM hb hi hj]
  constructor
  · intro hlo
    have hz : (M.getD i []).count 0 = n := by
      rw [count_zero_of_all_zero, hl]
      intro x hx
      obtain ⟨j', hj', rfl⟩ := mem_row hM hi hx
      exact (hband i j' hi hj').1 hlo
    rw [hz]
    by_cases hp : i % 2 = 0
    · rw [if_pos hp, if_pos hj]
    · rw [if_neg hp, if_pos (by omega)]
  · intro hhi
    have hz : (M.getD i []).count 0 = 0 := by
      apply count_zero_of_all_one
      intro x hx
      obtain ⟨j', hj', rfl⟩ := mem_row hM hi hx
      exact (hband i j' hi hj').2 hhi
    rw [hz]
    by_cases hp : i % 2 = 0
    · rw [if_pos hp, if_neg (by omega)]
    · rw [if_neg hp, if_neg (by omega)]

theorem rowPhase_isBinary {M : Matrix} {n : Nat} (hM : IsSquare M n) (hb : IsBinary M) :
    IsBinary (rowPhase M) := by
  apply isBinary_of_entries (rowPhase_isSquare hM)
  intro i j hi hj
  rw [entry_rowPhase_binary hM hb hi hj]
  split <;> split <;> simp

/-! ## Counting the zeros of a column -/

theorem countZeros_eq_count (f : Nat → Int) : ∀ (w s : Nat),
    ((List.range' s w).map f).count 0 = countZeros f s w
  | 0, _ => rfl
  | w + 1, s => by
    rw [List.range'_succ, List.map_cons, countZeros, List.count_cons,
      countZeros_eq_count f w (s + 1)]
    by_cases h : f s = 0
    · simp [h]; omega
    · simp [h]

theorem column_count_zero (M : Matrix) (j : Nat) :
    (column M j).count 0 = countZeros (fun i => entry M i j) 0 M.length := by
  unfold column
  rw [List.range_eq_range', countZeros_eq_count]

theorem countZeros_add (f : Nat → Int) : ∀ (a s b : Nat),
    countZeros f s (a + b) = countZeros f s a + countZeros f (s + a) b
  | 0, s, b => by simp [countZeros]
  | a + 1, s, b => by
    rw [show a + 1 + b = (a + b) + 1 by omega, countZeros, countZeros,
      countZeros_add f a (s + 1) b, show s + 1 + a = s + (a + 1) by omega]
    omega

theorem countZeros_of_all_zero (f : Nat → Int) : ∀ (w s : Nat),
    (∀ i, s ≤ i → i < s + w → f i = 0) → countZeros f s w = w
  | 0, _, _ => rfl
  | w + 1, s, h => by
    rw [countZeros, if_pos (h s (Nat.le_refl _) (by omega)),
      countZeros_of_all_zero f w (s + 1) (fun i h1 h2 => h i (by omega) (by omega))]
    omega

theorem countZeros_of_no_zero (f : Nat → Int) : ∀ (w s : Nat),
    (∀ i, s ≤ i → i < s + w → f i ≠ 0) → countZeros f s w = 0
  | 0, _, _ => rfl
  | w + 1, s, h => by
    rw [countZeros, if_neg (h s (Nat.le_refl _) (by omega)),
      countZeros_of_no_zero f w (s + 1) (fun i h1 h2 => h i (by omega) (by omega))]

/-- If on every two neighbouring positions `f` has at most one zero more than
`g`, then on `w` positions it has at most `(w + 1) / 2` zeros more. -/
theorem countZeros_le_of_pairs (f g : Nat → Int) : ∀ (w s : Nat),
    (∀ i, s ≤ i → i + 1 < s + w →
      (if f i = 0 then 1 else 0) + (if f (i + 1) = 0 then 1 else 0) ≤
        (if g i = 0 then 1 else 0) + (if g (i + 1) = 0 then 1 else 0) + 1) →
    countZeros f s w ≤ countZeros g s w + (w + 1) / 2
  | 0, _, _ => by simp [countZeros]
  | 1, s, _ => by
    simp only [countZeros]
    split <;> split <;> omega
  | w + 2, s, h => by
    have ih := countZeros_le_of_pairs f g w (s + 2)
      (fun i h1 h2 => h i (by omega) (by omega))
    have hp := h s (Nat.le_refl _) (by omega)
    rw [countZeros, countZeros, countZeros, countZeros]
    rw [show s + 1 + 1 = s + 2 by omega]
    omega

/-! ## One round halves the band of unsorted rows -/

theorem ite_zero_one_eq_zero (p : Prop) [Decidable p] :
    ((if p then (0 : Int) else 1) = 0) ↔ p := by
  by_cases h : p <;> simp [h]

/-- After the row phase two neighbouring rows together hold, in any column, at
most one zero more than in any other column: one row has its zeros at the
left end, the other at the right end. -/
theorem rowPhase_pair {M : Matrix} {n : Nat} (hM : IsSquare M n) (hb : IsBinary M)
    {i j j' : Nat} (hi : i + 1 < n) (hj : j < n) (hj' : j' < n) :
    (if entry (rowPhase M) i j = 0 then 1 else 0) +
        (if entry (rowPhase M) (i + 1) j = 0 then 1 else 0) ≤
      (if entry (rowPhase M) i j' = 0 then 1 else 0) +
        (if entry (rowPhase M) (i + 1) j' = 0 then 1 else 0) + 1 := by
  have ha : (M.getD i []).count 0 ≤ n := by
    have := List.count_le_length 0 (M.getD i [])
    rwa [isSquare_getD hM (show i < n by omega)] at this
  have hc : (M.getD (i + 1) []).count 0 ≤ n := by
    have := List.count_le_length 0 (M.getD (i + 1) [])
    rwa [isSquare_getD hM hi] at this
  rw [entry_rowPhase_binary hM hb (show i < n by omega) hj,
    entry_rowPhase_binary hM hb hi hj,
    entry_rowPhase_binary hM hb (show i < n by omega) hj',
    entry_rowPhase_binary hM hb hi hj']
  by_cases hp : i % 2 = 0
  · have hq : ¬ (i + 1) % 2 = 0 := by omega
    simp only [hp, hq, if_true, if_false, ite_zero_one_eq_zero]
    split_ifs <;> omega
  · have hq : (i + 1) % 2 = 0 := by omega
    simp only [hp, hq, if_true, if_false, ite_zero_one_eq_zero]
    split_ifs <;> omega

theorem column_isBinaryList {M : Matrix} {n : Nat} (hM : IsSquare M n) (hb : IsBinary M)
    {j : Nat} (hj : j < n) : IsBinaryList (column M j) := by
  intro x hx
  unfold column at hx
  obtain ⟨i, hi, rfl⟩ := List.mem_map.mp hx
  exact entry_binary hM hb (by rw [← hM.1]; exact List.mem_range.mp hi) hj

/-- The entries of a binary matrix after the column phase: column `j` holds
its zeros first. -/
theorem entry_columnPhase_binary {M : Matrix} {n : Nat} (hM : IsSquare M n) (hb : IsBinary M)
    {i j : Nat} (hi : i < n) (hj : j < n) :
    entry (columnPhase M) i j = if i < (column M j).count 0 then 0 else 1 := by
  rw [entry_columnPhase hM hi hj,
    stdSort_binary_getD (column_isBinaryList hM hb hj) (by rw [column_length, hM.1]; exact hi)]

/-- The number of zeros of a column of a matrix with a band `lo..up-1`. -/
theorem column_count_band {M : Matrix} {n lo up : Nat} (hM : IsSquare M n)
    (hband : Band M n lo up) (h1 : lo ≤ up) (h2 : up ≤ n) {j : Nat} (hj : j < n) :
    (column M j).count 0 = lo + countZeros (fun i => entry M i j) lo (up - lo) := by
  rw [column_count_zero, hM.1, show n = lo + ((up - lo) + (n - up)) by omega,
    countZeros_add, countZeros_add, Nat.zero_add,
    countZeros_of_all_zero _ lo 0 (fun i _ h => (hband i j (by omega) hj).1 (by omega)),
    countZeros_of_no_zero _ (n - up) (lo + (up - lo)) (fun i h3 h4 => by
      rw [(hband i j (by omega) hj).2 (by omega)]
      decide)]
  omega

theorem round_band {M : Matrix} {n lo up : Nat} (hn : 0 < n) (hM : IsSquare M n)
    (hb : IsBinary M) (hband : Band M n lo up) (h1 : lo ≤ up) (h2 : up ≤ n) :
    ∃ lo' up', lo' ≤ up' ∧ up' ≤ n ∧ up' - lo' ≤ (up - lo + 1) / 2 ∧
      Band (shearSortRound M) n lo' up' ∧ IsBinary (shearSortRound M) := by
  have hR := rowPhase_isSquare hM
  have hRb := rowPhase_isBinary hM hb
  have hRband := rowPhase_band hM hb hband
  -- zero counts of two columns differ by at most half the band
  have hdiff : ∀ j j', j < n → j' < n →
      (column (rowPhase M) j).count 0 ≤
        (column (rowPhase M) j').count 0 + (up - lo + 1) / 2 := by
    intro j j' hj hj'
    rw [column_count_band hR hRband h1 h2 hj, column_count_band hR hRband h1 h2 hj']
    have := countZeros_le_of_pairs (fun i => entry (rowPhase M) i j)
      (fun i => entry (rowPhase M) i j') (up - lo) lo
      (fun i h3 h4 => rowPhase_pair hM hb (by omega) hj hj')
    omega
  have hne : (Finset.range n).Nonempty := ⟨0, Finset.mem_range.mpr hn⟩
  obtain ⟨jmin, hjmin, hmin⟩ := Finset.exists_min_image (Finset.range n)
    (fun j => (column (rowPhase M) j).count 0) hne
  obtain ⟨jmax, hjmax, hmax⟩ := Finset.exists_max_image (Finset.range n)
    (fun j => (column (rowPhase M) j).count 0) hne
  have hjmin2 := Finset.mem_range.mp hjmin
  have hjmax2 := Finset.mem_range.mp hjmax
  have hle : (column (rowPhase M) jmax).count 0 ≤ n := by
    have := List.count_le_length 0 (column (rowPhase M) jmax)
    rwa [column_length, hR.1] at this
  have hentry : ∀ i j, i < n → j < n → entry (shearSortRound M) i j =
      if i < (column (rowPhase M) j).count 0 then 0 else 1 := by
    intro i j hi hj
    rw [shearSortRound_eq_phases hM, entry_columnPhase_binary hR hRb hi hj]
  refine ⟨(column (rowPhase M) jmin).count 0, (column (rowPhase M) jmax).count 0,
    hmax jmin hjmin, hle, ?_, ?_, ?_⟩
  · have := hdiff jmax jmin hjmax2 hjmin2
    omega
  · intro i j hi hj
    have h3 := hmin j (Finset.mem_range.mpr hj)
    have h4 := hmax j (Finset.mem_range.mpr hj)
    simp only at h3 h4
    rw [hentry i j hi hj]
    constructor
    · intro h
      rw [if_pos (by omega)]
    · intro h
      rw [if_neg (by omega)]
  · apply isBinary_of_entries (shearSortRound_isSquare hM)
    intro i j hi hj
    rw [hentry i j hi hj]
    split <;> simp

/-! ## Convergence on matrices of zeros and ones -/

/-- After `m` rounds a band of at most `2^m` rows has shrunk to at most one row. -/
theorem rounds_band {n : Nat} (hn : 0 < n) : ∀ (m : Nat) (M : Matrix) (lo up : Nat),
    IsSquare M n → IsBinary M → Band M n lo up → lo ≤ up → up ≤ n → up - lo ≤ 2 ^ m →
    ∃ lo' up', lo' ≤ up' ∧ up' ≤ n ∧ up' - lo' ≤ 1 ∧
      Band (shearSortRound^[m] M) n lo' up' ∧ IsBinary (shearSortRound^[m] M)
  | 0, M, lo, up, _, hb, hband, h1, h2, hw =>
    ⟨lo, up, h1, h2, by simpa using hw, hband, hb⟩
  | m + 1, M, lo, up, hM, hb, hband, h1, h2, hw => by
    obtain ⟨lo', up', h1', h2', hw', hband', hb'⟩ := round_band hn hM hb hband h1 h2
    rw [Function.iterate_succ_apply]
    have h2m : 2 ^ (m + 1) = 2 * 2 ^ m := by rw [Nat.pow_succ]; omega
    exact rounds_band hn m (shearSortRound M) lo' up' (shearSortRound_isSquare hM) hb' hband'
      h1' h2' (by omega)

theorem columnPhase_of_ordered {M : Matrix} {n : Nat} (hM : IsSquare M n)
    (hc : ∀ j i, j < n → 1 ≤ i → i < n → entry M (i - 1) j ≤ entry M i j) :
    columnPhase M = M := by
  unfold columnPhase
  rw [hM.1]
  exact foldl_range_preserves (fun R => R = M) sortColumn n
    (fun R j hj hR => by
      subst hR
      exact sortColumn_of_ordered R j (fun i h1 h2 => by
        rw [hM.1] at h2
        exact hc j i hj h1 h2))
    n (Nat.le_refl _) M rfl

/-- The rows after the row phase are ordered in the direction of their index. -/
theorem rowPhase_rows_ordered {M : Matrix} {n : Nat} (hM : IsSquare M n) (i j : Nat)
    (hi : i < n) (h1 : 1 ≤ j) (h2 : j < n) :
    (i % 2 = 0 → entry (rowPhase M) i (j - 1) ≤ entry (rowPhase M) i j) ∧
    (i % 2 = 1 → entry (rowPhase M) i (j - 1) ≥ entry (rowPhase M) i j) := by
  have hl : (sortedRow i (M.getD i [])).length = n := by
    rw [sortedRow_length, isSquare_getD hM hi]
  rw [entry_rowPhase hM hi, entry_rowPhase hM hi]
  constructor
  · intro hp
    have hs : List.Pairwise (· ≤ ·) (sortedRow i (M.getD i [])) := by
      unfold sortedRow
      rw [if_pos hp]
      exact stdSort_sorted _
    exact adjacent_of_pairwise (· ≤ ·) hs j h1 (by rw [hl]; exact h2)
  · intro hp
    have hs : List.Pairwise (· ≥ ·) (sortedRow i (M.getD i [])) := by
      unfold sortedRow
      rw [if_neg (by omega)]
      exact stdSortReverse_sorted _
    exact adjacent_of_pairwise (· ≥ ·) hs j h1 (by rw [hl]; exact h2)

/-- A round applied to a binary matrix whose band is at most one row leaves a
matrix in snake order. -/
theorem round_of_thin_band {M : Matrix} {n lo up : Nat} (hM : IsSquare M n)
    (hb : IsBinary M) (hband : Band M n lo up) (hw : up - lo ≤ 1) :
    isSortedSnake (shearSortRound M) = true := by
  have hR := rowPhase_isSquare hM
  have hRb := rowPhase_isBinary hM hb
  have hRband := rowPhase_band hM hb hband
  have hcols : ∀ j i, j < n → 1 ≤ i → i < n →
      entry (rowPhase M) (i - 1) j ≤ entry (rowPhase M) i j := by
    intro j i hj h1 h2
    by_cases hlo : i - 1 < lo
    · rw [(hRband (i - 1) j (by omega) hj).1 hlo]
      rcases entry_binary hR hRb h2 hj with h | h <;> omega
    · rw [(hRband i j h2 hj).2 (by omega)]
      rcases entry_binary hR hRb (show i - 1 < n by omega) hj with h | h <;> omega
  rw [shearSortRound_eq_phases hM, columnPhase_of_ordered hR hcols, isSortedSnake_spec, hR.1]
  exact ⟨fun i j hi h1 h2 => rowPhase_rows_ordered hM i j hi h1 h2, hcols⟩

theorem binary_convergence {n m : Nat} (hn : 0 < n) (hnm : n ≤ 2 ^ m) {M : Matrix}
    (hM : IsSquare M n) (hb : IsBinary M) :
    isSortedSnake (shearSortRound^[m + 1] M) = true := by
  have h0 : Band M n 0 n := fun i j hi _ =>
    ⟨fun h => absurd h (Nat.not_lt_zero i), fun h => by omega⟩
  obtain ⟨lo, up, _, _, hw, hband, hb'⟩ :=
    rounds_band hn m M 0 n hM hb h0 (Nat.zero_le n) (Nat.le_refl n) (by simpa using hnm)
  rw [Function.iterate_succ_apply']
  exact round_of_thin_band (iterate_shearSortRound_isSquare hM m) hb' hband hw

/-! ## Sorting commutes with monotone maps of the entries -/

theorem stdSort_map {f : Int → Int} (hf : ∀ a b, a ≤ b → f a ≤ f b) (l : List Int) :
    stdSort (l.map f) = (stdSort l).map f :=
  List.eq_of_perm_of_sorted ((stdSort_perm _).trans ((stdSort_perm l).map f).symm)
    (stdSort_sorted _) (List.Pairwise.map f (fun a b h => hf a b h) (stdSort_sorted l))

theorem stdSortReverse_map {f : Int → Int} (hf : ∀ a b, a ≤ b → f a ≤ f b) (l : List Int) :
    stdSortReverse (l.map f) = (stdSortReverse l).map f := by
  unfold stdSortReverse
  rw [← List.map_reverse, stdSort_map hf, List.map_reverse]

theorem sortedRow_map {f : Int → Int} (hf : ∀ a b, a ≤ b → f a ≤ f b) (r : Nat)
    (l : List Int) : sortedRow r (l.map f) = (sortedRow r l).map f := by
  unfold sortedRow
  split
  · exact stdSort_map hf l
  · exact stdSortReverse_map hf l

theorem mapEntries_getD (f : Int → Int) (M : Matrix) (i : Nat) :
    (mapEntries f M).getD i [] = (M.getD i []).map f := by
  unfold mapEntries
  by_cases hi : i < M.length
  · rw [List.getD_eq_getElem _ _ (by rw [List.length_map]; exact hi),
      List.getD_eq_getElem _ _ hi, List.getElem_map]
  · simp [List.getD_eq_getElem?_getD, List.getElem?_eq_none (Nat.le_of_not_lt hi)]

theorem mapEntries_length (f : Int → Int) (M : Matrix) :
    (mapEntries f M).length = M.length := by
  unfold mapEntries
  rw [List.length_map]

theorem mapEntries_isSquare (f : Int → Int) {M : Matrix} {n : Nat} (hM : IsSquare M n) :
    IsSquare (mapEntries f M) n := by
  refine ⟨by rw [mapEntries_length]; exact hM.1, ?_⟩
  intro row hrow
  unfold mapEntries at hrow
  obtain ⟨r, hr, rfl⟩ := List.mem_map.mp hrow
  rw [List.length_map]
  exact hM.2 r hr

theorem entry_mapEntries (f : Int → Int) {M : Matrix} {n : Nat} (hM : IsSquare M n)
    {i j : Nat} (hi : i < n) (hj : j < n) :
    entry (mapEntries f M) i j = f (entry M i j) := by
  have hl := isSquare_getD hM hi
  unfold entry
  rw [mapEntries_getD, List.getD_eq_getElem _ _ (by rw [List.length_map, hl]; exact hj),
    List.getD_eq_getElem (M.getD i []) 0 (by rw [hl]; exact hj), List.getElem_map]

theorem sortRow_mapEntries {f : Int → Int} (hf : ∀ a b, a ≤ b → f a ≤ f b) (M : Matrix)
    (r : Nat) : sortRow (mapEntries f M) r = mapEntries f (sortRow M r) := by
  rw [sortRow_eq, sortRow_eq, mapEntries_getD, sortedRow_map hf]
  unfold mapEntries
  rw [List.map_set]

theorem column_mapEntries (f : Int → Int) {M : Matrix} {n : Nat} (hM : IsSquare M n)
    {c : Nat} (hc : c < n) : column (mapEntries f M) c = (column M c).map f := by
  unfold column
  rw [mapEntries_length, List.map_map]
  apply List.map_congr_left
  intro i hi
  exact entry_mapEntries f hM (by rw [← hM.1]; exact List.mem_range.mp hi) hc

theorem sortColumn_mapEntries {f : Int → Int} (hf : ∀ a b, a ≤ b → f a ≤ f b) {M : Matrix}
    {n : Nat} (hM : IsSquare M n) {c : Nat} (hc : c < n) :
    sortColumn (mapEntries f M) c = mapEntries f (sortColumn M c) := by
  apply matrix_ext
  · rw [sortColumn_length, mapEntries_length, mapEntries_length, sortColumn_length]
  · intro i hi
    rw [mapEntries_length, sortColumn_length, hM.1] at hi
    have hlen : (stdSort (column M c)).length = n := by
      rw [stdSort_length, column_length, hM.1]
    rw [sortColumn_getD, mapEntries_getD, mapEntries_getD, sortColumn_getD,
      column_mapEntries f hM hc, stdSort_map hf, List.map_set,
      List.getD_eq_getElem ((stdSort (column M c)).map f) 0
        (by rw [List.length_map, hlen]; exact hi),
      List.getD_eq_getElem (stdSort (column M c)) 0 (by rw [hlen]; exact hi),
      List.getElem_map]

/-- A loop over indices below `n` commutes with a map `g` of the matrix when
each of its steps does, on the matrices satisfying an invariant. -/
theorem foldl_commutes (g : Matrix → Matrix) (f : Matrix → Nat → Matrix) (P : Matrix → Prop)
    (n : Nat) (hP : ∀ R i, i < n → P R → P (f R i))
    (hcomm : ∀ R i, i < n → P R → f (g R) i = g (f R i)) :
    ∀ (l : List Nat), (∀ i ∈ l, i < n) → ∀ R, P R →
      l.foldl f (g R) = g (l.foldl f R) ∧ P (l.foldl f R)
  | [], _, _, hR => ⟨rfl, hR⟩
  | i :: l, hl, R, hR => by
    have hi := hl i (List.mem_cons_self _ _)
    simp only [List.foldl_cons]
    rw [hcomm R i hi hR]
    exact foldl_commutes g f P n hP hcomm l (fun j hj => hl j (List.mem_cons_of_mem _ hj))
      _ (hP R i hi hR)

theorem shearSortRound_mapEntries {f : Int → Int} (hf : ∀ a b, a ≤ b → f a ≤ f b)
    {M : Matrix} {n : Nat} (hM : IsSquare M n) :
    shearSortRound (mapEntries f M) = mapEntries f (shearSortRound M) := by
  unfold shearSortRound
  simp only [mapEntries_length, hM.1]
  obtain ⟨h1, h2⟩ := foldl_commutes (mapEntries f) sortRow (fun R => IsSquare R n) n
    (fun R i hi hR => sortRow_isSquare hR hi)
    (fun R i _ _ => sortRow_mapEntries hf R i)
    (List.range n) (fun i hi => List.mem_range.mp hi) M hM
  rw [h1]
  exact (foldl_commutes (mapEntries f) sortColumn (fun R => IsSquare R n) n
    (fun R i _ hR => sortColumn_isSquare hR i)
    (fun R i hi hR => sortColumn_mapEntries hf hR hi)
    (List.range n) (fun i hi => List.mem_range.mp hi) _ h2).1

theorem iterate_shearSortRound_mapEntries {f : Int → Int} (hf : ∀ a b, a ≤ b → f a ≤ f b)
    {n : Nat} : ∀ (k : Nat) (M : Matrix), IsSquare M n →
    shearSortRound^[k] (mapEntries f M) = mapEntries f (shearSortRound^[k] M)
  | 0, _, _ => rfl
  | k + 1, M, hM => by
    rw [Function.iterate_succ_apply, Function.iterate_succ_apply,
      shearSortRound_mapEntries hf hM]
    exact iterate_shearSortRound_mapEntries hf k _ (shearSortRound_isSquare hM)

/-! ## From zeros and ones to integers -/

theorem threshold_mono (t : Int) : ∀ a b, a ≤ b → threshold t a ≤ threshold t b := by
  intro a b h
  unfold threshold
  split_ifs <;> omega

theorem mapEntries_threshold_isBinary (t : Int) (M : Matrix) :
    IsBinary (mapEntries (threshold t) M) := by
  intro row hrow x hx
  unfold mapEntries at hrow
  obtain ⟨r, _, rfl⟩ := List.mem_map.mp hrow
  obtain ⟨v, _, rfl⟩ := List.mem_map.mp hx
  unfold threshold
  split
  · right; rfl
  · left; rfl

/-- A violation of snake order is still a violation after the entries are
mapped to `1` from the larger value of the violating pair on and to `0` below. -/
theorem threshold_keeps_violation {R : Matrix} {n : Nat} (hR : IsSquare R n)
    (h : isSortedSnake R = false) :
    ∃ t, isSortedSnake (mapEntries (threshold t) R) = false := by
  have hspec := isSortedSnake_spec R
  rw [h, hR.1] at hspec
  have hneg : ¬ _ := fun hc => Bool.false_ne_true (hspec.mpr hc)
  rw [not_and_or] at hneg
  have key : ∀ a b : Int, b < a → threshold a a = 1 ∧ threshold a b = 0 := by
    intro a b hab
    unfold threshold
    exact ⟨if_pos (Int.le_refl a), if_neg (by omega)⟩
  have hT := fun t => mapEntries_isSquare (threshold t) hR
  rcases hneg with hrow | hcol
  · simp only [not_forall] at hrow
    obtain ⟨i, j, hi, h1, h2, hv⟩ := hrow
    rw [not_and_or] at hv
    rcases hv with hv | hv
    · simp only [Classical.not_imp, not_le] at hv
      obtain ⟨hp, hlt⟩ := hv
      refine ⟨entry R i (j - 1), ?_⟩
      rw [Bool.eq_false_iff]
      intro hs
      have := ((isSortedSnake_spec _).mp hs).1 i j (by rw [(hT _).1]; exact hi) h1
        (by rw [(hT _).1]; exact h2)
      have := this.1 hp
      rw [entry_mapEntries _ hR hi (by omega), entry_mapEntries _ hR hi h2,
        (key _ _ hlt).1, (key _ _ hlt).2] at this
      omega
    · simp only [Classical.not_imp, ge_iff_le, not_le] at hv
      obtain ⟨hp, hlt⟩ := hv
      refine ⟨entry R i j, ?_⟩
      rw [Bool.eq_false_iff]
      intro hs
      have := ((isSortedSnake_spec _).mp hs).1 i j (by rw [(hT _).1]; exact hi) h1
        (by rw [(hT _).1]; exact h2)
      have := this.2 hp
      rw [entry_mapEntries _ hR hi (by omega), entry_mapEntries _ hR hi h2,
        (key _ _ hlt).1, (key _ _ hlt).2] at this
      omega
  · simp only [not_forall, not_le] at hcol
    obtain ⟨j, i, hj, h1, h2, hlt⟩ := hcol
    refine ⟨entry R (i - 1) j, ?_⟩
    rw [Bool.eq_false_iff]
    intro hs
    have := ((isSortedSnake_spec _).mp hs).2 j i (by rw [(hT _).1]; exact hj) h1
      (by rw [(hT _).1]; exact h2)
    rw [entry_mapEntries _ hR (by omega) hj, entry_mapEntries _ hR h2 hj,
      (key _ _ hlt).1, (key _ _ hlt).2] at this
    omega

/-- Shear sort converges: on an `n×n` integer matrix with `1 ≤ n ≤ 2^m`,
`m + 1` rounds leave a matrix in snake order. -/
theorem rounds_converge {n m : Nat} (hn : 0 < n) (hnm : n ≤ 2 ^ m) {M : Matrix}
    (hM : IsSquare M n) : isSortedSnake (shearSortRound^[m + 1] M) = true := by
  by_contra hne
  have hfalse : isSortedSnake (shearSortRound^[m + 1] M) = false := by
    simpa using hne
  obtain ⟨t, ht⟩ := threshold_keeps_violation (iterate_shearSortRound_isSquare hM (m + 1)) hfalse
  rw [← iterate_shearSortRound_mapEntries (threshold_mono t) (m + 1) M hM,
    binary_convergence hn hnm (mapEntries_isSquare _ hM)
      (mapEntries_threshold_isBinary t M)] at ht
  exact Bool.noConfusion ht

theorem shearSort_power_of_two (k : Nat) {M : Matrix} (hM : IsSquare M (2 ^ k)) :
    isSortedSnake (shearSort M) = true := by
  have hpos : 0 < 2 ^ k := Nat.pos_pow_of_pos k (by decide)
  have hk : (shearSortRounds M.length).toNat = k + 1 := by
    rw [shearSortRounds_toNat, hM.1, if_neg (by omega), floorLog2_eq_log,
      Nat.log_pow (by decide)]
  rw [shearSort_eq_iterate, hk]
  exact rounds_converge hpos (Nat.le_refl _) hM

end ShearSort

namespace MachineInt

theorem wrapInt_of_inRange {x : Int} (h1 : -2147483648 ≤ x) (h2 : x < 2147483648) :
    wrapInt x = x := by
  unfold wrapInt
  omega

theorem readAt_of_lt {v : List Int} {i : Int} (h0 : 0 ≤ i) (h1 : i < v.length) :
    ∃ x, readAt v i = some x ∧ v[i.toNat]? = some x := by
  have hlt : i.toNat < v.length := by omega
  refine ⟨v[i.toNat], ?_, List.getElem?_eq_getElem hlt⟩
  unfold readAt
  rw [if_pos h0]
  exact List.getElem?_eq_getElem hlt

end MachineInt

namespace BSearch

open MachineInt

theorem sorted_getElem?_le {arr : List Int} (hs : List.Sorted (· ≤ ·) arr) {a b : Nat}
    {x y : Int} (hab : a ≤ b) (hx : arr[a]? = some x) (hy : arr[b]? = some y) : x ≤ y := by
  obtain ⟨ha, rfl⟩ := List.getElem?_eq_some_iff.mp hx
  obtain ⟨hb, rfl⟩ := List.getElem?_eq_some_iff.mp hy
  rcases Nat.lt_or_eq_of_le hab with h | h
  · exact List.pairwise_iff_getElem.mp hs a b ha hb h
  · subst h; exact Int.le_refl _

/-- The loop of `binarySearch` on a sorted vector of at most `2^30` elements,
entered with everything left of `low` below the target and everything right of
`high` above it: it returns, and what it returns is `-1` with the target
absent or a position of the target. -/
theorem binarySearchLoop_spec (arr : List Int) (target : Int)
    (hs : List.Sorted (· ≤ ·) arr) (hn : arr.length ≤ 1073741824) :
    ∀ (fuel : Nat) (low high : Int), 0 ≤ low → high < arr.length → low ≤ high + 1 →
    (high - low + 1).toNat < fuel →
    (∀ k : Nat, (k : Int) < low → ∀ x, arr[k]? = some x → x < target) →
    (∀ k : Nat, high < (k : Int) → ∀ x, arr[k]? = some x → target < x) →
    ∃ r, binarySearchLoop arr target fuel low high = Outcome.returns r ∧
      ((r = -1 ∧ target ∉ arr) ∨
        (0 ≤ r ∧ r < arr.length ∧ arr[r.toNat]? = some target))
  | 0, _, _, _, _, _, hf, _, _ => absurd hf (Nat.not_lt_zero _)
  | fuel + 1, low, high, h0, h1, h2, hf, hlo, hhi => by
    unfold binarySearchLoop
    by_cases hle : low ≤ high
    · rw [if_pos hle]
      have hw : wrapInt (low + high) = low + high := wrapInt_of_inRange (by omega) (by omega)
      have hmid : Int.tdiv (wrapInt (low + high)) 2 = (low + high) / 2 := by
        rw [hw, Int.tdiv_eq_ediv (by omega) (by omega)]
      simp only [hmid]
      obtain ⟨x, hread, hx⟩ := readAt_of_lt (v := arr) (i := (low + high) / 2)
        (by omega) (by omega)
      rw [hread]
      simp only
      by_cases hxt : x = target
      · rw [if_pos hxt]
        exact ⟨_, rfl, Or.inr ⟨by omega, by omega, by rw [hx, hxt]⟩⟩
      · rw [if_neg hxt]
        by_cases hlt : x < target
        · rw [if_pos hlt, wrapInt_of_inRange (by omega) (by omega)]
          apply binarySearchLoop_spec arr target hs hn fuel _ _ (by omega) h1 (by omega)
            (by omega) _ hhi
          intro k hk y hy
          exact Int.lt_of_le_of_lt (sorted_getElem?_le hs (by omega) hy hx) hlt
        · rw [if_neg hlt, wrapInt_of_inRange (by omega) (by omega)]
          apply binarySearchLoop_spec arr target hs hn fuel _ _ h0 (by omega) (by omega)
            (by omega) hlo
          intro k hk y hy
          have := sorted_getElem?_le hs (show ((low + high) / 2).toNat ≤ k by omega) hx hy
          omega
    · rw [if_neg hle]
      refine ⟨-1, rfl, Or.inl ⟨rfl, ?_⟩⟩
      intro hmem
      obtain ⟨k, hk, hkx⟩ := List.getElem_of_mem hmem
      have hk2 : arr[k]? = some target := by rw [List.getElem?_eq_getElem hk, hkx]
      by_cases hkl : (k : Int) < low
      · exact absurd (hlo k hkl target hk2) (Int.lt_irrefl _)
      · exact absurd (hhi k (by omega) target hk2) (Int.lt_irrefl _)

theorem binarySearch_spec (arr : List Int) (target : Int)
    (hs : List.Sorted (· ≤ ·) arr) (hn : arr.length ≤ 1073741824) :
    ∃ r, binarySearch arr target = Outcome.returns r ∧
      ((r = -1 ∧ target ∉ arr) ∨
        (0 ≤ r ∧ r < arr.length ∧ arr[r.toNat]? = some target)) := by
  unfold binarySearch
  rw [wrapInt_of_inRange (by omega) (by omega)]
  exact binarySearchLoop_spec arr target hs hn _ 0 _ (Int.le_refl _) (by omega) (by omega)
    (by omega) (fun k hk => by omega) (fun k hk x hx => by
      have := (List.getElem?_eq_some_iff.mp hx).1
      omega)

/-- On a vector of `2^31 - 1` elements that are all `0`, searched for `1`, the
second iteration computes `low + high = 1073741824 + 2147483646`, which does
not fit an `int`, and reads `arr[mid]` at the negative index that is left. -/
theorem binarySearch_overflow_of (arr : List Int) (hlen : arr.length = 2147483647)
    (hr : ∀ i : Nat, i < 2147483647 → arr[i]? = some 0) :
    binarySearch arr 1 = Outcome.undefined := by
  unfold binarySearch
  rw [hlen]
  have h1 : wrapInt (((2147483647 : Nat) : Int) - 1) = 2147483646 := by decide
  rw [h1]
  rw [binarySearchLoop]
  have h2 : Int.tdiv (wrapInt (0 + 2147483646)) 2 = 1073741823 := by decide
  simp only [h2]
  have h3 : readAt arr 1073741823 = some 0 := by
    unfold readAt
    rw [if_pos (by decide)]
    exact hr _ (by decide)
  rw [h3]
  simp only
  rw [if_pos (by decide), if_neg (by decide), if_pos (by decide)]
  have h4 : wrapInt (1073741823 + 1) = 1073741824 := by decide
  rw [h4]
  show binarySearchLoop _ _ (2147483646 + 1) _ _ = _
  rw [binarySearchLoop]
  have h5 : Int.tdiv (wrapInt (1073741824 + 2147483646)) 2 = -536870913 := by decide
  simp only [h5]
  have h6 : readAt arr (-536870913) = none := by
    unfold readAt
    rw [if_neg (by decide)]
  rw [h6]
  rw [if_pos (by decide)]

theorem binarySearch_overflow :
    binarySearch (List.replicate 2147483647 0) 1 = Outcome.undefined :=
  binarySearch_overflow_of _ (List.length_replicate _ _)
    (fun i hi => by rw [List.getElem?_replicate, if_pos hi])

end BSearch

namespace ShearSort

/-! ## The claims -/

/-- C1 (convergence), evaluated on a 3×3 input holding a repeated and a
non-repeated value: `shearSort` runs its 2 rounds and leaves
`[[0,0,0],[0,0,0],[1,0,2]]`, whose last row `1,0,2` is not non-decreasing, so
`isSortedSnake` returns `false` on the output. -/
theorem shearSort_threeDup_not_snake :
    IsSquare threeDup 3 ∧
    threeDup.flatten.count 0 = 7 ∧ threeDup.flatten.count 1 = 1 ∧
    shearSortRun threeDup = (2, [[0, 0, 0], [0, 0, 0], [1, 0, 2]]) ∧
    isSortedSnake (shearSort threeDup) = false := by
  decide

/-- C2 (permutation preservation): for every `n ≥ 0` and every `n×n` matrix the
multiset of entries after `shearSort` equals the multiset of entries before. -/
theorem shearSort_preserves_entries (n : Nat) (M : Matrix) (h : IsSquare M n) :
    ((shearSort M).flatten : Multiset Int) = (M.flatten : Multiset Int) := by
  rw [shearSort_eq_iterate]
  exact Multiset.coe_eq_coe.mpr (iterate_shearSortRound_flatten_perm h _)

theorem shearSort_preserves_entries_witness :
    IsSquare threeDup 3 ∧
    ((shearSort threeDup).flatten : Multiset Int) = (threeDup.flatten : Multiset Int) :=
  ⟨by decide, shearSort_preserves_entries 3 threeDup (by decide)⟩

/-- C3 (worked 4×4 scenario): on the given input `shearSort` computes
`rounds = 3` and runs 3 rounds, `isSortedSnake` accepts the output, and the
output read in snake order is `1, 2, ..., 16`. -/
theorem shearSort_scenario4 :
    shearSortRounds scenario4.length = 3 ∧
    (shearSortRun scenario4).1 = 3 ∧
    isSortedSnake (shearSort scenario4) = true ∧
    snakeFlatten (shearSort scenario4) =
      [1, 2, 3, 4, 5, 6, 7, 8, 9, 10, 11, 12, 13, 14, 15, 16] := by
  decide

/-- C4 (validator contract): on an `n×n` matrix `isSortedSnake` returns `true`
exactly when (1) in every row each pair of neighbours is non-decreasing if the
row index is even and non-increasing if it is odd, and (2) in every column
each pair of neighbours is non-decreasing.  The source takes the matrix by
`const` reference and never writes to it, so the embedded function has no
matrix result. -/
theorem isSortedSnake_iff (n : Nat) (M : Matrix) (h : IsSquare M n) :
    isSortedSnake M = true ↔
      (∀ i j, i < n → 1 ≤ j → j < n →
        (i % 2 = 0 → entry M i (j - 1) ≤ entry M i j) ∧
        (i % 2 = 1 → entry M i (j - 1) ≥ entry M i j)) ∧
      (∀ j i, j < n → 1 ≤ i → i < n → entry M (i - 1) j ≤ entry M i j) := by
  have := isSortedSnake_spec M
  rw [h.1] at this
  exact this

theorem isSortedSnake_iff_witness :
    IsSquare snake2 2 ∧
    (isSortedSnake snake2 = true ↔
      (∀ i j, i < 2 → 1 ≤ j → j < 2 →
        (i % 2 = 0 → entry snake2 i (j - 1) ≤ entry snake2 i j) ∧
        (i % 2 = 1 → entry snake2 i (j - 1) ≥ entry snake2 i j)) ∧
      (∀ j i, j < 2 → 1 ≤ i → i < 2 → entry snake2 (i - 1) j ≤ entry snake2 i j)) :=
  ⟨by decide, isSortedSnake_iff 2 snake2 (by decide)⟩

/-- C5 (fixed point): an `n×n` matrix accepted by `isSortedSnake` is returned
unchanged by one more `shearSortRound`. -/
theorem shearSortRound_fixes_snake (n : Nat) (M : Matrix) (hM : IsSquare M n)
    (h : isSortedSnake M = true) : shearSortRound M = M :=
  shearSortRound_of_snake hM h

theorem shearSortRound_fixes_snake_witness :
    IsSquare snake2 2 ∧ isSortedSnake snake2 = true ∧ shearSortRound snake2 = snake2 :=
  ⟨by decide, by decide, shearSortRound_fixes_snake 2 snake2 (by decide) (by decide)⟩

/-- C6 (column monotonicity): for `n ≥ 1` every column of the matrix left by
`shearSort` on an `n×n` matrix is non-decreasing top to bottom. -/
theorem shearSort_columns_nondecreasing (n : Nat) (M : Matrix) (hn : 1 ≤ n)
    (hM : IsSquare M n) (i j : Nat) (h1 : 1 ≤ i) (hi : i < n) (hj : j < n) :
    entry (shearSort M) (i - 1) j ≤ entry (shearSort M) i j := by
  have hk : (shearSortRounds M.length).toNat = floorLog2 n + 1 := by
    rw [shearSortRounds_toNat, hM.1, if_neg (by omega)]
  rw [shearSort_eq_iterate, hk, Function.iterate_succ_apply']
  have hsq := iterate_shearSortRound_isSquare hM (floorLog2 n)
  generalize shearSortRound^[floorLog2 n] M = R at hsq
  have hsorted := shearSortRound_columns_sorted hsq hj
  have hlen : (shearSortRound R).length = n := (shearSortRound_isSquare hsq).1
  have := adjacent_of_pairwise (· ≤ ·) hsorted i h1 (by rw [column_length, hlen]; exact hi)
  rwa [column_getD _ j i (by rw [hlen]; exact hi),
    column_getD _ j (i - 1) (by rw [hlen]; omega)] at this

theorem shearSort_columns_nondecreasing_witness :
    IsSquare threeDistinct 3 ∧
    entry (shearSort threeDistinct) (2 - 1) 1 ≤ entry (shearSort threeDistinct) 2 1 :=
  ⟨by decide,
    shearSort_columns_nondecreasing 3 threeDistinct (by decide) (by decide) 2 1
      (by decide) (by decide) (by decide)⟩

/-- C7 (row direction), evaluated on a 3×3 input of distinct values:
`shearSort` leaves `[[1,3,2],[6,4,5],[7,8,9]]`, where row 0 has `3 > 2` and so
is not non-decreasing, and row 1 has `4 < 5` and so is not non-increasing. -/
theorem shearSort_threeDistinct_rows :
    IsSquare threeDistinct 3 ∧
    shearSort threeDistinct = [[1, 3, 2], [6, 4, 5], [7, 8, 9]] ∧
    entry (shearSort threeDistinct) 0 1 > entry (shearSort threeDistinct) 0 2 ∧
    entry (shearSort threeDistinct) 1 1 < entry (shearSort threeDistinct) 1 2 := by
  decide

/-- C8 (round count): on an `n×n` matrix with `n ≥ 1`, `shearSort` computes
`rounds = floor(log2 n) + 1`, its loop ends with the counter at that value and
has applied `shearSortRound` exactly that many times; the count is
`1, 2, 3, 4, 5` for `n = 1, 2, 4, 8, 16`. -/
theorem shearSort_round_count (n : Nat) (hn : 1 ≤ n) (M : Matrix) (hM : IsSquare M n) :
    shearSortRounds n = (Nat.log 2 n : Int) + 1 ∧
    shearSortRun M = ((Nat.log 2 n : Int) + 1, shearSortRound^[Nat.log 2 n + 1] M) ∧
    (shearSortRounds 1 = 1 ∧ shearSortRounds 2 = 2 ∧ shearSortRounds 4 = 3 ∧
      shearSortRounds 8 = 4 ∧ shearSortRounds 16 = 5) := by
  have hr : shearSortRounds n = (Nat.log 2 n : Int) + 1 := by
    unfold shearSortRounds log2Cast
    rw [if_neg (by omega), floorLog2_eq_log]
  refine ⟨hr, ?_, by decide⟩
  unfold shearSortRun
  simp only [hM.1, hr]
  rw [shearSortLoop_spec _ _ 0 M (by omega) (by simp)]
  have e : ((Nat.log 2 n : Int) + 1 - 0).toNat = Nat.log 2 n + 1 := by omega
  rw [e]

theorem shearSort_round_count_witness :
    IsSquare threeDistinct 3 ∧
    shearSortRounds 3 = (Nat.log 2 3 : Int) + 1 ∧
    shearSortRun threeDistinct =
      ((Nat.log 2 3 : Int) + 1, shearSortRound^[Nat.log 2 3 + 1] threeDistinct) ∧
    (shearSortRounds 1 = 1 ∧ shearSortRounds 2 = 2 ∧ shearSortRounds 4 = 3 ∧
      shearSortRounds 8 = 4 ∧ shearSortRounds 16 = 5) :=
  ⟨by decide, shearSort_round_count 3 (by decide) threeDistinct (by decide)⟩

/-- C9 (RowSorter postcondition): after `sortRow(M, r)` on an `n×n` matrix with
`r < n`, row `r` is a permutation of the old row `r`, non-decreasing when `r`
is even and non-increasing when `r` is odd. -/
theorem sortRow_post (n : Nat) (M : Matrix) (r : Nat) (hM : IsSquare M n) (hr : r < n) :
    ((sortRow M r).getD r []).Perm (M.getD r []) ∧
    (r % 2 = 0 → List.Sorted (· ≤ ·) ((sortRow M r).getD r [])) ∧
    (r % 2 = 1 → List.Sorted (· ≥ ·) ((sortRow M r).getD r [])) := by
  rw [sortRow_getD_self M (by rw [hM.1]; exact hr)]
  refine ⟨sortedRow_perm r _, fun hp => ?_, fun hp => ?_⟩
  · unfold sortedRow
    rw [if_pos hp]
    exact stdSort_sorted _
  · unfold sortedRow
    rw [if_neg (by omega)]
    exact stdSortReverse_sorted _

theorem sortRow_post_witness :
    IsSquare threeDistinct 3 ∧
    ((sortRow threeDistinct 1).getD 1 []).Perm (threeDistinct.getD 1 []) ∧
    (1 % 2 = 0 → List.Sorted (· ≤ ·) ((sortRow threeDistinct 1).getD 1 [])) ∧
    (1 % 2 = 1 → List.Sorted (· ≥ ·) ((sortRow threeDistinct 1).getD 1 [])) :=
  ⟨by decide, sortRow_post 3 threeDistinct 1 (by decide) (by decide)⟩

/-- C10 (ColumnSorter postcondition): after `sortColumn(M, c)` on an `n×n`
matrix with `c < n`, the sequence `M[0][c], ..., M[n-1][c]` is a permutation
of the old column `c` and is non-decreasing, whatever the parity of `c`. -/
theorem sortColumn_post (n : Nat) (M : Matrix) (c : Nat) (hM : IsSquare M n) (hc : c < n) :
    (column (sortColumn M c) c).Perm (column M c) ∧
    List.Sorted (· ≤ ·) (column (sortColumn M c) c) := by
  rw [column_sortColumn_self hM hc]
  exact ⟨stdSort_perm _, stdSort_sorted _⟩

theorem sortColumn_post_witness :
    IsSquare threeDistinct 3 ∧
    (column (sortColumn threeDistinct 1) 1).Perm (column threeDistinct 1) ∧
    List.Sorted (· ≤ ·) (column (sortColumn threeDistinct 1) 1) :=
  ⟨by decide, sortColumn_post 3 threeDistinct 1 (by decide) (by decide)⟩


/-- C11 (frame of the two sorters): on an `n×n` matrix, `sortRow(M, r)` with
`r < n` leaves every entry outside row `r` as it was, and `sortColumn(M, c)`
with `c < n` leaves every entry outside column `c` as it was. -/
theorem sorters_frame (n : Nat) (M : Matrix) (_hM : IsSquare M n) :
    (∀ r i j, r < n → i < n → j < n → i ≠ r → entry (sortRow M r) i j = entry M i j) ∧
    (∀ c i j, c < n → i < n → j < n → j ≠ c → entry (sortColumn M c) i j = entry M i j) :=
  ⟨fun _ _ j _ _ _ h => entry_sortRow_of_ne M j h,
   fun _ i _ _ _ _ h => entry_sortColumn_of_ne M i h⟩

theorem sorters_frame_witness :
    IsSquare threeDistinct 3 ∧
    entry (sortRow threeDistinct 1) 0 2 = entry threeDistinct 0 2 ∧
    entry (sortColumn threeDistinct 1) 0 2 = entry threeDistinct 0 2 :=
  ⟨by decide,
    (sorters_frame 3 threeDistinct (by decide)).1 1 0 2 (by decide) (by decide) (by decide)
      (by decide),
    (sorters_frame 3 threeDistinct (by decide)).2 1 0 2 (by decide) (by decide) (by decide)
      (by decide)⟩

/-- C12 (parallel/sequential equivalence): on an `n×n` matrix a round that
runs `sortRow` over the row indices `0..n-1` in any order and then
`sortColumn` over the column indices `0..n-1` in any order leaves the matrix
that `shearSortRound` leaves; hence `shearSortParallel`, whatever the orders
chosen in each of its rounds, leaves the matrix that `shearSort` leaves. -/
theorem shearSortParallel_eq_shearSort (n : Nat) (M : Matrix) (hM : IsSquare M n) :
    (∀ rowOrder colOrder : List Nat,
      rowOrder.Perm (List.range n) → colOrder.Perm (List.range n) →
      shearSortRoundParallel rowOrder colOrder M = shearSortRound M) ∧
    (∀ sched : Int → List Nat × List Nat,
      (∀ r, (sched r).1.Perm (List.range n) ∧ (sched r).2.Perm (List.range n)) →
      shearSortParallel sched M = shearSort M) := by
  refine ⟨fun rowOrder colOrder hr hc => ?_, fun sched hs => ?_⟩
  · exact shearSortRoundParallel_eq M (by rw [hM.1]; exact hr) (by rw [hM.1]; exact hc)
  · unfold shearSortParallel shearSort shearSortRun
    simp only
    rw [shearSortParallelLoop_eq sched n hs _ _ 0 M hM.1]

theorem shearSortParallel_eq_shearSort_witness :
    IsSquare threeDistinct 3 ∧
    shearSortRoundParallel [2, 0, 1] [1, 2, 0] threeDistinct = shearSortRound threeDistinct ∧
    shearSortParallel (fun _ => ([2, 0, 1], [1, 2, 0])) threeDistinct =
      shearSort threeDistinct :=
  ⟨by decide,
    (shearSortParallel_eq_shearSort 3 threeDistinct (by decide)).1 [2, 0, 1] [1, 2, 0]
      (by decide) (by decide),
    (shearSortParallel_eq_shearSort 3 threeDistinct (by decide)).2
      (fun _ => ([2, 0, 1], [1, 2, 0]))
      (fun _ => ⟨(by decide : [2, 0, 1].Perm (List.range 3)),
        (by decide : [1, 2, 0].Perm (List.range 3))⟩)⟩

/-- C13 (degenerate sizes): `shearSort` returns the empty matrix and every 1×1
matrix, `[[42]]` among them, unchanged, and `isSortedSnake` accepts them.  On
the empty matrix this holds for whatever number of rounds the loop is run. -/
theorem shearSort_degenerate :
    (shearSort [] = [] ∧ isSortedSnake [] = true) ∧
    (∀ (rounds : Int) (fuel : Nat) (r : Int), (shearSortLoop rounds fuel r []).2 = []) ∧
    (∀ a : Int, shearSort [[a]] = [[a]] ∧ isSortedSnake [[a]] = true) ∧
    (shearSort [[42]] = [[42]] ∧ isSortedSnake [[42]] = true) := by
  have hloop : ∀ (rounds : Int) (fuel : Nat) (r : Int),
      (shearSortLoop rounds fuel r []).2 = [] := by
    intro rounds fuel
    induction fuel with
    | zero => intro r; rfl
    | succ fuel ih =>
      intro r
      unfold shearSortLoop
      split
      · exact ih (r + 1)
      · rfl
  have hone : ∀ a : Int, shearSort [[a]] = [[a]] ∧ isSortedSnake [[a]] = true := by
    intro a
    have hs : isSortedSnake [[a]] = true := rfl
    have hsq : IsSquare [[a]] 1 := ⟨rfl, by simp⟩
    refine ⟨?_, hs⟩
    rw [shearSort_eq_iterate]
    have hk : (shearSortRounds ([[a]] : Matrix).length).toNat = 1 := by
      show (shearSortRounds 1).toNat = 1
      decide
    rw [hk, Function.iterate_one]
    exact shearSortRound_of_snake hsq hs
  exact ⟨⟨by decide, by decide⟩, hloop, hone, hone 42⟩

/-- C16 (round count as `ceil(log2 n) + 1`), evaluated at `n = 3`: `shearSort`
computes `rounds = 2` and its loop runs 2 rounds on a 3×3 matrix, while
`ceil(log2 3) + 1 = 3`. -/
theorem shearSort_rounds_three :
    IsSquare threeDistinct 3 ∧
    shearSortRounds 3 = 2 ∧ (shearSortRun threeDistinct).1 = 2 ∧
    Nat.clog 2 3 + 1 = 3 := by
  refine ⟨by decide, by decide, by decide, ?_⟩
  rw [Nat.clog_of_two_le (by decide) (by decide)]
  rw [Nat.clog_of_two_le (by decide) (by decide)]
  simp

/-- C14 (shape invariant): on a matrix of `n` rows of `n` elements each,
`sortRow` (`r < n`), `sortColumn` (`c < n`), `shearSortRound` and `shearSort`
leave a matrix of `n` rows of `n` elements each, and no index access of
`shearSort` (through its rounds and their row and column sorts) or of
`isSortedSnake` falls out of range: the functions with checked accesses return
what the plain ones return. -/
theorem shape_invariant (n : Nat) (M : Matrix) (hM : IsSquare M n) :
    (∀ r, r < n → IsSquare (sortRow M r) n ∧ sortRowChecked M r = some (sortRow M r)) ∧
    (∀ c, c < n →
      IsSquare (sortColumn M c) n ∧ sortColumnChecked M c = some (sortColumn M c)) ∧
    (IsSquare (shearSortRound M) n ∧ shearSortRoundChecked M = some (shearSortRound M)) ∧
    (IsSquare (shearSort M) n ∧ shearSortChecked M = some (shearSort M)) ∧
    isSortedSnakeChecked M = some (isSortedSnake M) :=
  ⟨fun _ hr => ⟨sortRow_isSquare hM hr, sortRowChecked_eq hM hr⟩,
   fun c hc => ⟨sortColumn_isSquare hM c, sortColumnChecked_eq hM hc⟩,
   ⟨shearSortRound_isSquare hM, shearSortRoundChecked_eq hM⟩,
   ⟨shearSort_isSquare hM, shearSortChecked_eq hM⟩,
   isSortedSnakeChecked_eq hM⟩

theorem shape_invariant_witness :
    IsSquare threeDistinct 3 ∧
    (∀ r, r < 3 →
      IsSquare (sortRow threeDistinct r) 3 ∧
      sortRowChecked threeDistinct r = some (sortRow threeDistinct r)) ∧
    (∀ c, c < 3 →
      IsSquare (sortColumn threeDistinct c) 3 ∧
      sortColumnChecked threeDistinct c = some (sortColumn threeDistinct c)) ∧
    (IsSquare (shearSortRound threeDistinct) 3 ∧
      shearSortRoundChecked threeDistinct = some (shearSortRound threeDistinct)) ∧
    (IsSquare (shearSort threeDistinct) 3 ∧
      shearSortChecked threeDistinct = some (shearSort threeDistinct)) ∧
    isSortedSnakeChecked threeDistinct = some (isSortedSnake threeDistinct) :=
  ⟨by decide, shape_invariant 3 threeDistinct (by decide)⟩

/-- C15 (the validator decides snake order): on an `n×n` matrix
`isSortedSnake` returns `true` exactly when the entries read in snake order
form a non-decreasing sequence. -/
theorem isSortedSnake_iff_snake_order (n : Nat) (M : Matrix) (hM : IsSquare M n) :
    isSortedSnake M = true ↔ List.Sorted (· ≤ ·) (snakeFlatten M) :=
  isSortedSnake_iff_snakeFlatten hM

theorem isSortedSnake_iff_snake_order_witness :
    IsSquare snake2 2 ∧
    (isSortedSnake snake2 = true ↔ List.Sorted (· ≤ ·) (snakeFlatten snake2)) :=
  ⟨by decide, isSortedSnake_iff_snake_order 2 snake2 (by decide)⟩

/-- C17 (convergence for power-of-two sizes): for every `k` and every
`2^k × 2^k` integer matrix, duplicates allowed, `shearSort` runs `k + 1` rounds
and `isSortedSnake` returns `true` on the matrix it leaves. -/
theorem shearSort_converges_power_of_two (k : Nat) (M : Matrix) (hM : IsSquare M (2 ^ k)) :
    (shearSortRun M).1 = (k : Int) + 1 ∧ isSortedSnake (shearSort M) = true := by
  refine ⟨?_, shearSort_power_of_two k hM⟩
  have hpos : 0 < 2 ^ k := Nat.pos_pow_of_pos k (by decide)
  have hr : shearSortRounds (2 ^ k) = (k : Int) + 1 := by
    unfold shearSortRounds log2Cast
    rw [if_neg (by omega), floorLog2_eq_log, Nat.log_pow (by decide)]
  unfold shearSortRun
  simp only [hM.1, hr]
  rw [shearSortLoop_spec _ _ 0 M (by omega) (by simp)]

theorem shearSort_converges_power_of_two_witness :
    IsSquare scenario4 (2 ^ 2) ∧
    (shearSortRun scenario4).1 = ((2 : Nat) : Int) + 1 ∧
    isSortedSnake (shearSort scenario4) = true :=
  ⟨by decide, shearSort_converges_power_of_two 2 scenario4 (by decide)⟩

end ShearSort

namespace PrefixSum

open MachineInt

/-- C18 (prefix sum), evaluated on the vector of `main`, whose length `8` is a
power of two: the program leaves `22 13 4 15 12 12 16 0`, while the exclusive
prefix sums of the input are `0 1 3 4 11 14 14 18`.  With `offset = d` the
first pass of `upsweep` runs at `i = 0, 2, 4, 6` and adds `v[i]` to itself. -/
theorem main_output :
    main = Outcome.returns [22, 13, 4, 15, 12, 12, 16, 0] ∧
    exclusivePrefixSums mainInput = [0, 1, 3, 4, 11, 14, 14, 18] ∧
    upsweep mainInput 2 1 = Outcome.returns [2, 2, 2, 7, 6, 0, 8, 3] := by
  decide

end PrefixSum

namespace BSearch

open MachineInt

/-- C20 (parallel binary search), evaluated on two sorted inputs with the
iterations of the `for` loop in index order.  On `{1,2,3,4,5}` with target `4`
and 3 threads the call returns `-1` although `arr[3] = 4` and `binarySearch`
returns `3`: the last segment is `[2, 4]`, only its two ends are compared, and
the loop is left because `step == 1`.  On `{1,2,3}` with target `2` and 1
thread the `while` loop never ends: its only segment is `[low, high]` again. -/
theorem parallelBinarySearch_misses :
    (∀ fuel, parallelBinarySearch (fuel + 1) [1, 2, 3, 4, 5] 4 3 = Outcome.returns (-1)) ∧
    binarySearch [1, 2, 3, 4, 5] 4 = Outcome.returns 3 ∧
    (∀ fuel, parallelBinarySearch fuel [1, 2, 3] 2 1 = Outcome.running) ∧
    binarySearch [1, 2, 3] 2 = Outcome.returns 1 := by
  refine ⟨fun fuel => rfl, by decide, fun fuel => ?_, by decide⟩
  induction fuel with
  | zero => rfl
  | succ fuel ih => exact ih

end BSearch

namespace BSearch

open MachineInt

/-- C19 (sequential binary search), evaluated on a sorted vector of `2^31 - 1`
zeros searched for `1`, which does not occur in it: the call does not return
`-1`.  Its second iteration adds `low = 1073741824` and `high = 2147483646`,
which does not fit an `int`, and indexes `arr` with the negative `mid` that
results. -/
theorem binarySearch_large_vector :
    List.Sorted (· ≤ ·) (List.replicate 2147483647 (0 : Int)) ∧
    (1 : Int) ∉ List.replicate 2147483647 (0 : Int) ∧
    binarySearch (List.replicate 2147483647 0) 1 = Outcome.undefined := by
  refine ⟨?_, ?_, binarySearch_overflow⟩
  · exact List.pairwise_replicate.mpr (Or.inr (Int.le_refl 0))
  · intro h
    exact absurd (List.eq_of_mem_replicate h) (by decide)

end BSearch
